import Mathlib

/-!
Verification of the Sudoku solver (`src/sudokuSolver/Sudoku.ts`).

The solver is shallowly embedded: the grid `values : number[][]` becomes
`List (List Int)`, each method of the `Sudoku` class becomes a function of the
grid, the two iterative loops (`solve`'s propagation `while` and
`solveByTrialAndError`'s `while (true)`) become fuel-indexed loops over an
explicit step function, and the TypeError raised by
`unfilledPositions[nextIndex].x` when the cursor retreats below index 0 is
modelled by an explicit `fault` outcome.  JavaScript out-of-range reads
(`undefined`) are modelled with `Option`: `undefined === v` is `false` for
every number `v`, which matches `Option.none ≠ some v`.
-/

namespace Sudoku

/-- The game state: the `values : number[][]` field of the `Sudoku` class. -/
abbrev Values := List (List Int)

/-- Row access `this.values[x]` (all modelled uses are in range). -/
def getRow (m : Values) (x : Nat) : List Int := m.getD x []

/-- Cell read `this.values[x][y]`; `none` models JavaScript `undefined`. -/
def getCell? (m : Values) (x y : Nat) : Option Int := (getRow m x).get? y

/-- Cell assignment `this.values[x][y] = v`. -/
def setCell (m : Values) (x y : Nat) (v : Int) : Values :=
  m.set x ((getRow m x).set y v)

/-- `countValueInRow`: occurrences of `value` among the cells of row `x`. -/
def countValueInRow (m : Values) (x : Nat) (v : Int) : Nat :=
  (getRow m x).countP (fun c => c == v)

/-- `isValuePresentInRow`: count strictly positive. -/
def isValuePresentInRow (m : Values) (x : Nat) (v : Int) : Bool :=
  0 < countValueInRow m x v

/-- `countValueInColumn`: loop over all rows comparing `values[x][col] === value`. -/
def countValueInColumn (m : Values) (y : Nat) (v : Int) : Nat :=
  m.countP (fun row => row.get? y == some v)

/-- `isValuePresentInColumn`: count strictly positive. -/
def isValuePresentInColumn (m : Values) (y : Nat) (v : Int) : Bool :=
  0 < countValueInColumn m y v

/-- The nine coordinates of the 3×3 group containing `(x, y)`: the group anchor
is `(x / 3 * 3, y / 3 * 3)` and the group spans the next two rows and columns. -/
def groupCells (x y : Nat) : List (Nat × Nat) :=
  (List.range 3).flatMap (fun a => (List.range 3).map (fun b => (x / 3 * 3 + a, y / 3 * 3 + b)))

/-- `countValueInGroup`: occurrences of `value` among the nine group cells. -/
def countValueInGroup (m : Values) (x y : Nat) (v : Int) : Nat :=
  (groupCells x y).countP (fun p => getCell? m p.1 p.2 == some v)

/-- `isValuePresentInGroup`: count strictly positive. -/
def isValuePresentInGroup (m : Values) (x y : Nat) (v : Int) : Bool :=
  0 < countValueInGroup m x y v

/-- `canValueBeAddedInOnlyOnePositionInGroup`: the number of group positions that
are unfilled and whose row and column do not contain the value equals one. -/
def canValueBeAddedInOnlyOnePositionInGroup (m : Values) (x y : Nat) (v : Int) : Bool :=
  ((groupCells x y).countP (fun p =>
    getCell? m p.1 p.2 == some 0 &&
      !(isValuePresentInRow m p.1 v || isValuePresentInColumn m p.2 v))) == 1

/-- `isValueValidInPosition`: absent from row, column and group, and (when the
flag is set) addable in only one position of the group. -/
def isValueValidInPosition (m : Values) (x y : Nat) (v : Int)
    (testOnlyOnePositionInGroup : Bool) : Bool :=
  !isValuePresentInRow m x v &&
    !isValuePresentInColumn m y v &&
    !isValuePresentInGroup m x y v &&
    (if testOnlyOnePositionInGroup then canValueBeAddedInOnlyOnePositionInGroup m x y v else true)

/-- `isSolved`: no cell equals zero. -/
def isSolved (m : Values) : Bool :=
  m.all (fun row => row.all (fun c => c != 0))

/-- The two kinds of construction failure thrown by `validate`: the bare
`Invalid game.` (structural) and `Invalid game. Position : (x,y)` (constraint). -/
inductive GameError where
  | structural
  | constraint (x y : Nat)
deriving DecidableEq

/-- The body of `validate`'s inner loop for one cell (guarded by `value !== 0`). -/
def validateCell (m : Values) (x y : Nat) : Option GameError :=
  let v := (getRow m x).getD y 0
  if v = 0 then none
  else if v < 0 || 9 < v || decide (1 < countValueInRow m x v) ||
      decide (1 < countValueInColumn m y v) || decide (1 < countValueInGroup m x y v) then
    some (GameError.constraint x y)
  else none

/-- One row of `validate`: the row-length check, then each of its cells in order. -/
def validateRow (m : Values) (x : Nat) : Option GameError :=
  if (getRow m x).length ≠ 9 then some GameError.structural
  else (List.range 9).findSome? (validateCell m x)

/-- `validate`: `none` means construction succeeds; otherwise the first error
thrown.  The row-count check comes first; then rows are processed in order,
each row's length check before that row's cell checks. -/
def validate (m : Values) : Option GameError :=
  if m.length ≠ 9 then some GameError.structural
  else (List.range 9).findSome? (validateRow m)

/-- An unfilled position record `{ x, y, valuesTested }` of the search frontier. -/
structure Entry where
  x : Nat
  y : Nat
  valuesTested : List Int
deriving DecidableEq

/-- `getUnfilledPositions` in row-major order.  Note the source's inner loop
bound is `this.values.length` (the row count), not the row's own length. -/
def getUnfilledPositions (m : Values) : List Entry :=
  (List.range m.length).flatMap (fun x =>
    (List.range m.length).filterMap (fun y =>
      if getCell? m x y = some 0 then some ⟨x, y, []⟩ else none))

/-- `isValueTested`: linear scan of the `valuesTested` list. -/
def isValueTested (valuesTested : List Int) (v : Int) : Bool :=
  valuesTested.any (fun w => w == v)

/-- The candidate scan `for (i = 1; i <= 9; i++)` inside `solve`'s propagation
pass: the first value accepted by `isValueValidInPosition(x, y, i, true)`. -/
def findCandidate (m : Values) (x y : Nat) : Option Int :=
  (List.range' 1 9).findSome? (fun k : Nat =>
    if isValueValidInPosition m x y (k : Int) true then some (k : Int) else none)

/-- The candidate scan `for (i = 1; i <= 9; i++)` inside `solveByTrialAndError`:
values already in `valuesTested` are skipped, and the first value accepted by
`isValueValidInPosition(x, y, i, false)` is returned. -/
def findTrialValue (m : Values) (e : Entry) : Option Int :=
  (List.range' 1 9).findSome? (fun k : Nat =>
    if isValueTested e.valuesTested (k : Int) then none
    else if isValueValidInPosition m e.x e.y (k : Int) false then some (k : Int) else none)

/-- Propagation over the listed cells of row `x`: the inner `for y` loop of
`solve`.  An unfilled cell receives its first accepted candidate, if any. -/
def sweepRow (m : Values) (x : Nat) (ys : List Nat) (changed : Bool) : Values × Bool :=
  match ys with
  | [] => (m, changed)
  | y :: rest =>
    if getCell? m x y = some 0 then
      match findCandidate m x y with
      | some v => sweepRow (setCell m x y v) x rest true
      | none => sweepRow m x rest changed
    else sweepRow m x rest changed

/-- Propagation over the listed rows: the outer `for x` loop of `solve`. -/
def sweepRows (m : Values) (xs : List Nat) (changed : Bool) : Values × Bool :=
  match xs with
  | [] => (m, changed)
  | x :: rest =>
    let p := sweepRow m x (List.range (getRow m x).length) changed
    sweepRows p.1 rest p.2

/-- One full pass of the propagation sweep: one iteration of `solve`'s `while`
loop body, starting with `haveChangesOccured = false`. -/
def sweepPass (m : Values) : Values × Bool := sweepRows m (List.range m.length) false

/-- Number of zero cells of the grid; used as fuel bound for the sweep loop. -/
def countZeros (m : Values) : Nat :=
  (m.map (fun row => row.countP (fun c => c == 0))).sum

/-- The `while (!this.isSolved())` propagation loop of `solve`, indexed by fuel:
`none` means the fuel ran out before the loop exited. -/
def sweepLoopO : Nat → Values → Option Values
  | 0, _ => none
  | fuel + 1, m =>
    if isSolved m then some m
    else
      let p := sweepPass m
      if p.2 then sweepLoopO fuel p.1 else some p.1

/-- The propagation loop run with fuel `countZeros m + 1`, which is provably
sufficient (`sweepLoopO_isSome_of_lt`): every pass that reports a change fills
at least one zero cell. -/
def sweepFix (m : Values) : Values := (sweepLoopO (countZeros m + 1) m).getD m

/-- State of the trial-and-error loop: the grid, the `unfilledPositions` list,
and the `nextIndex` cursor (an integer: the source decrements it below zero). -/
structure TState where
  m : Values
  ps : List Entry
  idx : Int
deriving DecidableEq

/-- Result of one iteration of the `while (true)` loop of `solveByTrialAndError`:
continue with a new state, `break` out of the loop, or raise the TypeError
caused by reading `.x` of `unfilledPositions[nextIndex]` when that entry is
`undefined` (cursor below zero). -/
inductive StepRes where
  | next (s : TState)
  | finished (m : Values)
  | fault (m : Values)
deriving DecidableEq

/-- One iteration of the `while (true)` loop of `solveByTrialAndError`. -/
def trialStep (s : TState) : StepRes :=
  if s.idx > (s.ps.length : Int) - 1 then .finished s.m
  else if s.idx < 0 then .fault s.m
  else
    match s.ps.get? s.idx.toNat with
    | none => .fault s.m
    | some e =>
      let m1 := setCell s.m e.x e.y 0
      match findTrialValue m1 e with
      | some v =>
        .next ⟨setCell m1 e.x e.y v,
          s.ps.set s.idx.toNat { e with valuesTested := e.valuesTested ++ [v] }, s.idx + 1⟩
      | none =>
        if isSolved m1 then .next ⟨m1, s.ps, s.idx⟩
        else .next ⟨setCell m1 e.x e.y 0,
          s.ps.set s.idx.toNat { e with valuesTested := [] }, s.idx - 1⟩

/-- Overall outcome of `solve`: normal return with the final grid, or the
uncaught TypeError with the grid state at the moment it is raised. -/
inductive SolveResult where
  | ok (m : Values)
  | fault (m : Values)
deriving DecidableEq

/-- The trial-and-error loop, indexed by fuel (`none` = fuel exhausted). -/
def trialLoop : Nat → TState → Option SolveResult
  | 0, _ => none
  | fuel + 1, s =>
    match trialStep s with
    | .finished m => some (.ok m)
    | .fault m => some (.fault m)
    | .next s' => trialLoop fuel s'

/-- `solve`: the propagation sweep to a fixed point, then — if the grid is still
incomplete — the trial-and-error search over the remaining unfilled positions. -/
def solve (fuel : Nat) (m : Values) : Option SolveResult :=
  let m1 := sweepFix m
  if isSolved m1 then some (.ok m1)
  else trialLoop fuel ⟨m1, getUnfilledPositions m1, 0⟩

/-- The grid state carried by a solve outcome. -/
def gridOf : SolveResult → Values
  | .ok m => m
  | .fault m => m

/-- Number of non-zero cells of the grid. -/
def countNonZeros (m : Values) : Nat :=
  (m.map (fun row => row.countP (fun c => c != 0))).sum

/-! ### Spec-side wording of the propagation acceptance rule (for claim C4).

These two definitions follow the specification's words, not the source, and are
compared with `isValueValidInPosition`/`findCandidate` in the C4 refinement
theorem: a position `p` of the block qualifies when `p` is currently unfilled
and the value is absent from `p`'s row and from `p`'s column; a candidate is
accepted iff it is absent from the cell's row, column and block and exactly one
qualifying position exists in the block. -/

/-- Spec wording: position `p` qualifies for value `v`. -/
def specQualifies (m : Values) (v : Int) (p : Nat × Nat) : Prop :=
  getCell? m p.1 p.2 = some 0 ∧
    (∀ j, j < 9 → getCell? m p.1 j ≠ some v) ∧
    (∀ i, i < 9 → getCell? m i p.2 ≠ some v)

instance (m : Values) (v : Int) (p : Nat × Nat) : Decidable (specQualifies m v p) := by
  unfold specQualifies; infer_instance

/-- Spec wording: candidate `v` is accepted at the unfilled cell `(x, y)`. -/
def specAccepts (m : Values) (x y : Nat) (v : Int) : Prop :=
  (∀ j, j < 9 → getCell? m x j ≠ some v) ∧
    (∀ i, i < 9 → getCell? m i y ≠ some v) ∧
    (∀ p ∈ groupCells x y, getCell? m p.1 p.2 ≠ some v) ∧
    ((groupCells x y).countP (fun p => decide (specQualifies m v p))) = 1

/-! ### Wellformedness predicates and the termination measure. -/

/-- The grid is a 9×9 matrix. -/
def shape9 (m : Values) : Prop :=
  m.length = 9 ∧ ∀ row ∈ m, row.length = 9

instance (m : Values) : Decidable (shape9 m) := by
  unfold shape9
  infer_instance

/-- Every cell value lies in [0, 9]. -/
def cellBounds (m : Values) : Prop :=
  ∀ row ∈ m, ∀ c ∈ row, 0 ≤ c ∧ c ≤ 9

/-- No non-zero value occurs more than once in any row, column or group. -/
def noDups (m : Values) : Prop :=
  ∀ v : Int, v ≠ 0 →
    (∀ x, countValueInRow m x v ≤ 1) ∧
    (∀ y, countValueInColumn m y v ≤ 1) ∧
    (∀ x y, countValueInGroup m x y v ≤ 1)

/-- A frontier entry is wellformed for grid `m`: its tried list holds distinct
values from 1–9 and its coordinate addresses a real cell of `m`. -/
def entryBound (m : Values) (e : Entry) : Prop :=
  e.valuesTested.Nodup ∧ (∀ v ∈ e.valuesTested, 1 ≤ v ∧ v ≤ 9) ∧
    e.x < m.length ∧ e.y < (getRow m e.x).length

/-- A wellformed trial-and-error state. -/
def WFState (s : TState) : Prop :=
  ∀ e ∈ s.ps, entryBound s.m e

/-- Length of the tried list of the `j`-th frontier entry. -/
def triedLen (ps : List Entry) (j : Nat) : Nat :=
  ((ps.get? j).map (fun e => e.valuesTested.length)).getD 0

/-- One positional term of the termination measure. -/
def muTerm (ps : List Entry) (j : Nat) : Nat :=
  (10 - triedLen ps j) * 11 ^ (ps.length - 1 - j)

/-- Termination measure for the trial-and-error loop: positions up to the
cursor, weighted so that both accepting a value (cursor advances) and
backtracking (cursor retreats) strictly decrease the measure. -/
def mu (s : TState) : Nat :=
  ((List.range (min s.idx.toNat (s.ps.length - 1) + 1)).map (muTerm s.ps)).sum

/-! ### Concrete grids used in counterexamples and witnesses. -/

/-- A valid grid whose first unfilled cell `(0,8)` admits no value (1–8 occupy
its row, 9 its column), so the search exhausts immediately and the cursor
retreats below zero. -/
def crashGrid : Values :=
  [[1, 2, 3, 4, 5, 6, 7, 8, 0],
   [0, 0, 0, 0, 0, 0, 0, 0, 9],
   [0, 0, 0, 0, 0, 0, 0, 0, 0],
   [0, 0, 0, 0, 0, 0, 0, 0, 0],
   [0, 0, 0, 0, 0, 0, 0, 0, 0],
   [0, 0, 0, 0, 0, 0, 0, 0, 0],
   [0, 0, 0, 0, 0, 0, 0, 0, 0],
   [0, 0, 0, 0, 0, 0, 0, 0, 0],
   [0, 0, 0, 0, 0, 0, 0, 0, 0]]

/-- A complete valid grid (the cyclically shifted pattern). -/
def fullGrid : Values :=
  [[1, 2, 3, 4, 5, 6, 7, 8, 9],
   [4, 5, 6, 7, 8, 9, 1, 2, 3],
   [7, 8, 9, 1, 2, 3, 4, 5, 6],
   [2, 3, 4, 5, 6, 7, 8, 9, 1],
   [5, 6, 7, 8, 9, 1, 2, 3, 4],
   [8, 9, 1, 2, 3, 4, 5, 6, 7],
   [3, 4, 5, 6, 7, 8, 9, 1, 2],
   [6, 7, 8, 9, 1, 2, 3, 4, 5],
   [9, 1, 2, 3, 4, 5, 6, 7, 8]]

/-- `fullGrid` with cell `(0,0)` cleared: one propagation pass completes it. -/
def nearFull : Values :=
  [[0, 2, 3, 4, 5, 6, 7, 8, 9],
   [4, 5, 6, 7, 8, 9, 1, 2, 3],
   [7, 8, 9, 1, 2, 3, 4, 5, 6],
   [2, 3, 4, 5, 6, 7, 8, 9, 1],
   [5, 6, 7, 8, 9, 1, 2, 3, 4],
   [8, 9, 1, 2, 3, 4, 5, 6, 7],
   [3, 4, 5, 6, 7, 8, 9, 1, 2],
   [6, 7, 8, 9, 1, 2, 3, 4, 5],
   [9, 1, 2, 3, 4, 5, 6, 7, 8]]

/-- The 9×9 matrix that is all zeros except for value 5 at `(0, c1)` and
`(0, c2)` of row 0. -/
def twoFivesGrid (c1 c2 : Nat) : Values :=
  (List.range 9).map (fun x =>
    (List.range 9).map (fun y =>
      if x = 0 ∧ (y = c1 ∨ y = c2) then (5 : Int) else 0))

/-- Nine rows, the second of which has only eight columns, with a duplicated 5
in row 0: not a 9×9 matrix, yet validation reports a constraint error. -/
def raggedDupGrid : Values :=
  [[5, 5, 0, 0, 0, 0, 0, 0, 0],
   [0, 0, 0, 0, 0, 0, 0, 0],
   [0, 0, 0, 0, 0, 0, 0, 0, 0],
   [0, 0, 0, 0, 0, 0, 0, 0, 0],
   [0, 0, 0, 0, 0, 0, 0, 0, 0],
   [0, 0, 0, 0, 0, 0, 0, 0, 0],
   [0, 0, 0, 0, 0, 0, 0, 0, 0],
   [0, 0, 0, 0, 0, 0, 0, 0, 0],
   [0, 0, 0, 0, 0, 0, 0, 0, 0]]

/-- A matrix with eight rows only. -/
def eightRowsGrid : Values :=
  [[0, 0, 0, 0, 0, 0, 0, 0, 0],
   [0, 0, 0, 0, 0, 0, 0, 0, 0],
   [0, 0, 0, 0, 0, 0, 0, 0, 0],
   [0, 0, 0, 0, 0, 0, 0, 0, 0],
   [0, 0, 0, 0, 0, 0, 0, 0, 0],
   [0, 0, 0, 0, 0, 0, 0, 0, 0],
   [0, 0, 0, 0, 0, 0, 0, 0, 0],
   [0, 0, 0, 0, 0, 0, 0, 0, 0]]

/-- A valid grid with exactly two placed values (corner-diagonal placements). -/
def twoClueGrid : Values :=
  [[1, 0, 0, 0, 0, 0, 0, 0, 0],
   [0, 0, 0, 0, 0, 0, 0, 0, 0],
   [0, 0, 0, 0, 0, 0, 0, 0, 0],
   [0, 0, 0, 0, 0, 0, 0, 0, 0],
   [0, 0, 0, 0, 0, 0, 0, 0, 0],
   [0, 0, 0, 0, 0, 0, 0, 0, 0],
   [0, 0, 0, 0, 0, 0, 0, 0, 0],
   [0, 0, 0, 0, 0, 0, 0, 0, 0],
   [0, 0, 0, 0, 0, 0, 0, 0, 2]]

/-- Two equal 9×9 grids built by different means (for the determinism witness). -/
def copyGridA : Values :=
  (List.range 9).map (fun x => (List.range 9).map (fun y => if x = 0 ∧ y = 0 then 3 else 0))

/-- The same grid written as a literal. -/
def copyGridB : Values :=
  [[3, 0, 0, 0, 0, 0, 0, 0, 0],
   [0, 0, 0, 0, 0, 0, 0, 0, 0],
   [0, 0, 0, 0, 0, 0, 0, 0, 0],
   [0, 0, 0, 0, 0, 0, 0, 0, 0],
   [0, 0, 0, 0, 0, 0, 0, 0, 0],
   [0, 0, 0, 0, 0, 0, 0, 0, 0],
   [0, 0, 0, 0, 0, 0, 0, 0, 0],
   [0, 0, 0, 0, 0, 0, 0, 0, 0],
   [0, 0, 0, 0, 0, 0, 0, 0, 0]]

/-! ### Generic list lemmas. -/

theorem countP_set_of_get? {α} (p : α → Bool) (l : List α) (i : Nat) (a z : α)
    (h : l.get? i = some z) :
    (l.set i a).countP p + (if p z then 1 else 0) = l.countP p + (if p a then 1 else 0) := by
  induction l generalizing i with
  | nil => simp at h
  | cons b t ih =>
    cases i with
    | zero =>
      simp only [List.get?] at h
      cases h
      simp only [List.set, List.countP_cons]
      omega
    | succ j =>
      simp only [List.get?] at h
      have := ih j h
      simp only [List.set, List.countP_cons]
      omega

theorem sum_set_of_get? (l : List Nat) (i : Nat) (a z : Nat) (h : l.get? i = some z) :
    (l.set i a).sum + z = l.sum + a := by
  induction l generalizing i with
  | nil => simp at h
  | cons b t ih =>
    cases i with
    | zero =>
      simp only [List.get?] at h
      cases h
      simp [List.set, List.sum_cons]
      omega
    | succ j =>
      simp only [List.get?] at h
      have := ih j h
      simp only [List.set, List.sum_cons]
      omega

theorem countP_congr_mem {α} {p q : α → Bool} {l : List α}
    (h : ∀ a ∈ l, p a = q a) : l.countP p = l.countP q := by
  induction l with
  | nil => simp
  | cons b t ih =>
    simp only [List.countP_cons]
    rw [ih (fun a ha => h a (List.mem_cons_of_mem b ha)), h b (List.mem_cons_self b t)]

theorem countP_set_congr_except {α} {p q : α → Bool} (l : List α) (i : Nat) (a z : α)
    (h : l.get? i = some z) (hother : ∀ b ∈ l, p b = q b) :
    (l.set i a).countP p + (if q z then 1 else 0) = l.countP q + (if p a then 1 else 0) := by
  have h1 := countP_set_of_get? p l i a z h
  have h2 : l.countP p = l.countP q := countP_congr_mem hother
  have hz : p z = q z := hother z (List.get?_mem h)
  rw [hz] at h1
  omega

theorem findSome?_range'_eq_some_iff {f : Nat → Option Int} {v : Int} :
    ∀ (n s : Nat), ((List.range' s n).findSome? f = some v ↔
      ∃ k, s ≤ k ∧ k < s + n ∧ f k = some v ∧ ∀ j, s ≤ j → j < k → f j = none) := by
  intro n
  induction n with
  | zero =>
    intro s
    simp only [List.range', List.findSome?]
    constructor
    · intro h; cases h
    · rintro ⟨k, h1, h2, -, -⟩; omega
  | succ n ih =>
    intro s
    rw [List.range'_succ]
    rw [List.findSome?_cons]
    cases hfs : f s with
    | some w =>
      constructor
      · intro h
        cases h
        exact ⟨s, le_refl s, by omega, hfs, fun j h1 h2 => by omega⟩
      · rintro ⟨k, h1, h2, h3, h4⟩
        rcases Nat.eq_or_lt_of_le h1 with rfl | hlt
        · rw [hfs] at h3; exact h3
        · have := h4 s (le_refl s) hlt
          rw [hfs] at this; cases this
    | none =>
      rw [ih (s + 1)]
      constructor
      · rintro ⟨k, h1, h2, h3, h4⟩
        exact ⟨k, by omega, by omega, h3, fun j hj1 hj2 => by
          rcases Nat.eq_or_lt_of_le hj1 with rfl | hlt
          · exact hfs
          · exact h4 j hlt hj2⟩
      · rintro ⟨k, h1, h2, h3, h4⟩
        have hks : s ≠ k := by
          rintro rfl; rw [hfs] at h3; cases h3
        exact ⟨k, by omega, by omega, h3, fun j hj1 hj2 => h4 j (by omega) hj2⟩

theorem findSome?_eq_none_iff' {α β} {f : α → Option β} {l : List α} :
    l.findSome? f = none ↔ ∀ a ∈ l, f a = none := by
  induction l with
  | nil => simp
  | cons b t ih =>
    rw [List.findSome?_cons]
    cases hfb : f b with
    | some w => simp [hfb]
    | none => simp [hfb, ih]

theorem exists_of_findSome?_eq_some' {α β} {f : α → Option β} {l : List α} {b : β}
    (h : l.findSome? f = some b) : ∃ a ∈ l, f a = some b := by
  induction l with
  | nil => cases h
  | cons c t ih =>
    rw [List.findSome?_cons] at h
    cases hfc : f c with
    | some w =>
      rw [hfc] at h; cases h
      exact ⟨c, List.mem_cons_self c t, hfc⟩
    | none =>
      rw [hfc] at h
      obtain ⟨a, ha, hfa⟩ := ih h
      exact ⟨a, List.mem_cons_of_mem c ha, hfa⟩

/-! ### Basic facts about cell access and assignment. -/

theorem get?_some_lt {α} {l : List α} {n : Nat} {a : α} (h : l.get? n = some a) :
    n < l.length := by
  by_contra hc
  rw [List.get?_eq_none.2 (by omega)] at h
  cases h

theorem get?_set_self {α} (l : List α) (i : Nat) (a : α) (h : i < l.length) :
    (l.set i a).get? i = some a := by
  induction l generalizing i with
  | nil => simp at h
  | cons b t ih =>
    cases i with
    | zero => rfl
    | succ j =>
      simp only [List.length_cons] at h
      exact ih j (by omega)

theorem get?_set_other {α} (l : List α) (i j : Nat) (a : α) (h : i ≠ j) :
    (l.set i a).get? j = l.get? j := by
  induction l generalizing i j with
  | nil => rfl
  | cons b t ih =>
    cases i with
    | zero =>
      cases j with
      | zero => omega
      | succ j' => rfl
    | succ i' =>
      cases j with
      | zero => rfl
      | succ j' => exact ih i' j' (by omega)

theorem getD_as_get? {α} (l : List α) (i : Nat) (d : α) : l.getD i d = (l.get? i).getD d := by
  induction l generalizing i with
  | nil => cases i <;> rfl
  | cons b t ih =>
    cases i with
    | zero => rfl
    | succ j => exact ih j

theorem getRow_length_le (m : Values) (x : Nat) (h : m.length ≤ x) : getRow m x = [] := by
  unfold getRow
  rw [List.getD_eq_default]
  omega

theorem getRow_eq_of_get? {m : Values} {x : Nat} {row : List Int}
    (h : m.get? x = some row) : getRow m x = row := by
  unfold getRow
  rw [getD_as_get? m x [], h]
  rfl

theorem getCell?_isSome_bounds {m : Values} {x y : Nat} {v : Int}
    (h : getCell? m x y = some v) : x < m.length ∧ y < (getRow m x).length := by
  unfold getCell? at h
  have hy : y < (getRow m x).length := by
    by_contra hc
    rw [List.get?_eq_none.2 (by omega)] at h
    cases h
  refine ⟨?_, hy⟩
  by_contra hc
  rw [getRow_length_le m x (by omega)] at hy
  simp at hy

theorem getRow_setCell (m : Values) (x y : Nat) (v : Int) (a : Nat) :
    getRow (setCell m x y v) a =
      if a = x ∧ x < m.length then (getRow m x).set y v else getRow m a := by
  unfold setCell getRow
  rcases eq_or_ne a x with rfl | hne
  · by_cases hx : a < m.length
    · simp only [hx, and_true, if_pos rfl]
      rw [getD_as_get?, get?_set_self m a _ hx]
      rfl
    · rw [List.set_eq_of_length_le (by omega)]
      simp [hx]
  · simp only [hne, false_and, if_neg, not_false_iff]
    simp only [getD_as_get?]
    rw [get?_set_other m x a _ (fun h => hne h.symm)]

theorem getRow_setCell_length (m : Values) (x y : Nat) (v : Int) (a : Nat) :
    (getRow (setCell m x y v) a).length = (getRow m a).length := by
  rw [getRow_setCell]
  split
  · rename_i h
    rw [List.length_set, h.1]
  · rfl

theorem length_setCell (m : Values) (x y : Nat) (v : Int) :
    (setCell m x y v).length = m.length := by
  unfold setCell
  exact List.length_set m x ((getRow m x).set y v)

theorem getCell?_setCell_eq {m : Values} {x y : Nat} {z : Int} (v : Int)
    (h : getCell? m x y = some z) :
    getCell? (setCell m x y v) x y = some v := by
  obtain ⟨hx, hy⟩ := getCell?_isSome_bounds h
  unfold getCell?
  rw [getRow_setCell]
  simp only [hx, and_true, if_pos rfl]
  exact get?_set_self _ y v hy

theorem getCell?_setCell_ne (m : Values) (x y : Nat) (v : Int) (a b : Nat)
    (h : ¬(a = x ∧ b = y)) :
    getCell? (setCell m x y v) a b = getCell? m a b := by
  unfold getCell?
  rw [getRow_setCell]
  split
  · rename_i hax
    obtain ⟨rfl, -⟩ := hax
    have hby : b ≠ y := fun hb => h ⟨rfl, hb⟩
    rw [get?_set_other _ y b _ (fun hc => hby hc.symm)]
  · rfl

theorem set_get?_self {α} (l : List α) (i : Nat) (a : α) (h : l.get? i = some a) :
    l.set i a = l := by
  induction l generalizing i with
  | nil => simp at h
  | cons b t ih =>
    cases i with
    | zero =>
      simp only [List.get?] at h
      cases h
      rfl
    | succ j =>
      simp only [List.get?] at h
      simp [List.set, ih j h]

theorem setCell_out_of_range (m : Values) (x y : Nat) (v : Int)
    (h : getCell? m x y = none) : setCell m x y v = m := by
  unfold setCell
  unfold getCell? at h
  by_cases hx : x < m.length
  · have hy : (getRow m x).length ≤ y := by
      by_contra hc
      rw [List.get?_eq_get (by omega)] at h
      cases h
    rw [List.set_eq_of_length_le hy]
    apply set_get?_self
    unfold getRow
    rw [getD_as_get? m x [], List.get?_eq_get hx]
    rfl
  · exact List.set_eq_of_length_le (by omega)

theorem get?_eq_some_getRow (m : Values) (x : Nat) (h : x < m.length) :
    m.get? x = some (getRow m x) := by
  rw [List.get?_eq_get h]
  unfold getRow
  rw [getD_as_get? m x [], List.get?_eq_get h]
  rfl

theorem getCell?_eq_getD {m : Values} {x y : Nat} {v : Int}
    (h : getCell? m x y = some v) : (getRow m x).getD y 0 = v := by
  unfold getCell? at h
  rw [getD_as_get? _ y 0, h]
  rfl

theorem getCell?_of_lt {m : Values} {x y : Nat} (hy : y < (getRow m x).length) :
    getCell? m x y = some ((getRow m x).getD y 0) := by
  unfold getCell?
  rw [List.get?_eq_get hy, getD_as_get? _ y 0, List.get?_eq_get hy]
  rfl

/-- Writing a non-zero value into a zero cell removes exactly one zero. -/
theorem countZeros_setCell {m : Values} {x y : Nat} {v : Int}
    (h : getCell? m x y = some 0) (hv : v ≠ 0) :
    countZeros (setCell m x y v) + 1 = countZeros m := by
  obtain ⟨hx, hy⟩ := getCell?_isSome_bounds h
  have hrow : m.get? x = some (getRow m x) := get?_eq_some_getRow m x hx
  have hcp := countP_set_of_get? (fun c => c == 0) (getRow m x) y v 0 h
  have hv0 : ((v == 0)) = false := by simp [hv]
  simp only [hv0, show ((0 : Int) == 0) = true from rfl] at hcp
  simp only [if_true, Bool.false_eq_true, if_false, Nat.add_zero] at hcp
  have h1 : countZeros (setCell m x y v) =
      ((m.map (fun row => row.countP (fun c => c == 0))).set x
        (((getRow m x).set y v).countP (fun c => c == 0))).sum := by
    unfold countZeros setCell
    rw [List.map_set]
  have hget : (m.map (fun row => row.countP (fun c => c == 0))).get? x =
      some ((getRow m x).countP (fun c => c == 0)) := by
    rw [List.get?_map, hrow]
    rfl
  have hsum := sum_set_of_get? _ x
    (((getRow m x).set y v).countP (fun c => c == 0)) _ hget
  have h2 : countZeros m = (m.map (fun row => row.countP (fun c => c == 0))).sum := rfl
  omega

/-- Zeroing any cell never decreases the zero count and never increases any
non-zero value's counts; here: the zero count does not decrease. -/
theorem countZeros_setCell_zero_ge (m : Values) (x y : Nat) :
    countZeros m ≤ countZeros (setCell m x y 0) := by
  cases hc : getCell? m x y with
  | none => rw [setCell_out_of_range m x y 0 hc]
  | some z =>
    obtain ⟨hx, hy⟩ := getCell?_isSome_bounds hc
    have hrow : m.get? x = some (getRow m x) := get?_eq_some_getRow m x hx
    have hcp := countP_set_of_get? (fun c => c == 0) (getRow m x) y 0 z hc
    simp only [show ((0 : Int) == 0) = true from rfl, if_true] at hcp
    have h1 : countZeros (setCell m x y 0) =
        ((m.map (fun row => row.countP (fun c => c == 0))).set x
          (((getRow m x).set y 0).countP (fun c => c == 0))).sum := by
      unfold countZeros setCell
      rw [List.map_set]
    have hget : (m.map (fun row => row.countP (fun c => c == 0))).get? x =
        some ((getRow m x).countP (fun c => c == 0)) := by
      rw [List.get?_map, hrow]
      rfl
    have hsum := sum_set_of_get? _ x
      (((getRow m x).set y 0).countP (fun c => c == 0)) _ hget
    have h2 : countZeros m = (m.map (fun row => row.countP (fun c => c == 0))).sum := rfl
    by_cases hz : (z == 0) = true <;>
      simp only [hz, if_true, Bool.false_eq_true, if_false] at hcp <;> omega

/-! ### Characterizations of the two candidate scans. -/

theorem findCandidate_eq_some_iff {m : Values} {x y : Nat} {v : Int} :
    findCandidate m x y = some v ↔
      ∃ k : Nat, 1 ≤ k ∧ k ≤ 9 ∧ v = (k : Int) ∧
        isValueValidInPosition m x y (k : Int) true = true ∧
        ∀ j : Nat, 1 ≤ j → j < k → isValueValidInPosition m x y (j : Int) true = false := by
  unfold findCandidate
  rw [findSome?_range'_eq_some_iff]
  constructor
  · rintro ⟨k, h1, h2, h3, h4⟩
    by_cases hvk : isValueValidInPosition m x y (k : Int) true = true
    · rw [if_pos hvk] at h3
      refine ⟨k, h1, by omega, by cases h3; rfl, hvk, fun j hj1 hj2 => ?_⟩
      have := h4 j hj1 (by omega)
      by_cases hvj : isValueValidInPosition m x y (j : Int) true = true
      · rw [if_pos hvj] at this; cases this
      · simpa using hvj
    · rw [if_neg hvk] at h3; cases h3
  · rintro ⟨k, h1, h2, h3, h4, h5⟩
    refine ⟨k, h1, by omega, by rw [if_pos h4, h3], fun j hj1 hj2 => ?_⟩
    rw [if_neg (by simp [h5 j hj1 hj2])]

theorem findCandidate_eq_none_iff {m : Values} {x y : Nat} :
    findCandidate m x y = none ↔
      ∀ k : Nat, 1 ≤ k → k ≤ 9 → isValueValidInPosition m x y (k : Int) true = false := by
  unfold findCandidate
  rw [findSome?_eq_none_iff']
  constructor
  · intro h k h1 h2
    have hmem : k ∈ List.range' 1 9 := by
      simp only [List.mem_range']
      exact ⟨k - 1, by omega, by omega⟩
    have := h k hmem
    by_cases hvk : isValueValidInPosition m x y (k : Int) true = true
    · rw [if_pos hvk] at this; cases this
    · simpa using hvk
  · intro h k hk
    simp only [List.mem_range'] at hk
    obtain ⟨i, hi, rfl⟩ := hk
    have hf := h (1 + 1 * i) (by omega) (by omega)
    have hcast : ((1 + 1 * i : Nat) : Int) = 1 + (i : Int) := by push_cast; ring
    rw [hcast] at hf
    rw [if_neg (by simp [hf])]

theorem findTrialValue_eq_some {m : Values} {e : Entry} {v : Int}
    (h : findTrialValue m e = some v) :
    ∃ k : Nat, 1 ≤ k ∧ k ≤ 9 ∧ v = (k : Int) ∧
      isValueTested e.valuesTested (k : Int) = false ∧
      isValueValidInPosition m e.x e.y (k : Int) false = true := by
  unfold findTrialValue at h
  obtain ⟨k, hk, hfk⟩ := exists_of_findSome?_eq_some' h
  simp only [List.mem_range'] at hk
  obtain ⟨i, hi, rfl⟩ := hk
  by_cases ht : isValueTested e.valuesTested ((1 + 1 * i : Nat) : Int) = true
  · rw [if_pos ht] at hfk; cases hfk
  · rw [if_neg ht] at hfk
    by_cases hvd : isValueValidInPosition m e.x e.y ((1 + 1 * i : Nat) : Int) false = true
    · rw [if_pos hvd] at hfk
      exact ⟨1 + 1 * i, by omega, by omega, by cases hfk; rfl, by simpa using ht, hvd⟩
    · rw [if_neg hvd] at hfk; cases hfk

theorem isValueTested_append (l : List Int) (v w : Int) :
    isValueTested (l ++ [v]) w = (isValueTested l w || w == v) := by
  unfold isValueTested
  rw [List.any_append]
  simp [BEq.comm]

/-! ### Facts about the 3×3 groups. -/

theorem mem_groupCells_iff {x y a b : Nat} :
    (a, b) ∈ groupCells x y ↔
      ∃ i, i < 3 ∧ ∃ j, j < 3 ∧ a = x / 3 * 3 + i ∧ b = y / 3 * 3 + j := by
  unfold groupCells
  simp only [List.mem_flatMap, List.mem_map, List.mem_range, Prod.mk.injEq]
  constructor
  · rintro ⟨i, hi, j, hj, h1, h2⟩
    exact ⟨i, hi, j, hj, h1.symm, h2.symm⟩
  · rintro ⟨i, hi, j, hj, h1, h2⟩
    exact ⟨i, hi, j, hj, h1.symm, h2.symm⟩

theorem groupCells_eq_of_mem {x y a b : Nat} (h : (a, b) ∈ groupCells x y) :
    groupCells a b = groupCells x y := by
  rw [mem_groupCells_iff] at h
  obtain ⟨i, hi, j, hj, rfl, rfl⟩ := h
  unfold groupCells
  have h1 : (x / 3 * 3 + i) / 3 = x / 3 := by omega
  have h2 : (y / 3 * 3 + j) / 3 = y / 3 := by omega
  rw [h1, h2]

theorem mem_groupCells_self (x y : Nat) : (x, y) ∈ groupCells x y := by
  rw [mem_groupCells_iff]
  exact ⟨x % 3, by omega, y % 3, by omega, by omega, by omega⟩

theorem groupCells_bounds {x y a b : Nat} (hx : x < 9) (hy : y < 9)
    (h : (a, b) ∈ groupCells x y) : a < 9 ∧ b < 9 := by
  rw [mem_groupCells_iff] at h
  obtain ⟨i, hi, j, hj, rfl, rfl⟩ := h
  omega

/-! ### Facts extracted from a successful validation. -/

theorem validate_none_rows {m : Values} (h : validate m = none) :
    m.length = 9 ∧ ∀ x, x < 9 → validateRow m x = none := by
  unfold validate at h
  by_cases hl : m.length ≠ 9
  · rw [if_pos hl] at h; cases h
  · rw [if_neg hl] at h
    refine ⟨by omega, fun x hx => ?_⟩
    exact findSome?_eq_none_iff'.1 h x (by simp [List.mem_range, hx])

theorem validateRow_none_facts {m : Values} {x : Nat} (h : validateRow m x = none) :
    (getRow m x).length = 9 ∧ ∀ y, y < 9 → validateCell m x y = none := by
  unfold validateRow at h
  by_cases hl : (getRow m x).length ≠ 9
  · rw [if_pos hl] at h; cases h
  · rw [if_neg hl] at h
    exact ⟨by omega, fun y hy =>
      findSome?_eq_none_iff'.1 h y (by simp [List.mem_range, hy])⟩

theorem validateCell_none_facts {m : Values} {x y : Nat} {v : Int}
    (h : validateCell m x y = none) (hcell : (getRow m x).getD y 0 = v) (hv : v ≠ 0) :
    0 ≤ v ∧ v ≤ 9 ∧ countValueInRow m x v ≤ 1 ∧
      countValueInColumn m y v ≤ 1 ∧ countValueInGroup m x y v ≤ 1 := by
  unfold validateCell at h
  simp only [hcell] at h
  rw [if_neg hv] at h
  by_cases hc : (decide (v < 0) || decide (9 < v) || decide (1 < countValueInRow m x v) ||
      decide (1 < countValueInColumn m y v) || decide (1 < countValueInGroup m x y v)) = true
  · rw [if_pos hc] at h; cases h
  · simp only [Bool.or_eq_true, decide_eq_true_eq, not_or] at hc
    obtain ⟨⟨⟨⟨h1, h2⟩, h3⟩, h4⟩, h5⟩ := hc
    exact ⟨by omega, by omega, by omega, by omega, by omega⟩

theorem validate_none_shape9 {m : Values} (h : validate m = none) : shape9 m := by
  obtain ⟨hlen, hrows⟩ := validate_none_rows h
  refine ⟨hlen, fun row hrow => ?_⟩
  obtain ⟨x, hx⟩ := List.mem_iff_get?.1 hrow
  have hx9 : x < 9 := by
    have := get?_some_lt hx
    omega
  have hfact := (validateRow_none_facts (hrows x hx9)).1
  rw [getRow_eq_of_get? hx] at hfact
  exact hfact

theorem rowLen9 {m : Values} (h9 : shape9 m) {x : Nat} (hx : x < m.length) :
    (getRow m x).length = 9 :=
  h9.2 _ (List.get?_mem (get?_eq_some_getRow m x hx))

theorem validate_none_cellBounds {m : Values} (h : validate m = none) : cellBounds m := by
  obtain ⟨hlen, hrows⟩ := validate_none_rows h
  intro row hrow c hc
  obtain ⟨x, hx⟩ := List.mem_iff_get?.1 hrow
  have hx9 : x < 9 := by
    have := get?_some_lt hx
    omega
  obtain ⟨hrl, hcells⟩ := validateRow_none_facts (hrows x hx9)
  have hrowx : getRow m x = row := getRow_eq_of_get? hx
  obtain ⟨y, hy⟩ := List.mem_iff_get?.1 hc
  have hy9 : y < 9 := by
    have := get?_some_lt hy
    rw [hrowx] at hrl
    omega
  have hgetD : (getRow m x).getD y 0 = c := by
    rw [hrowx, getD_as_get? row y 0, hy]
    rfl
  rcases eq_or_ne c 0 with rfl | hne
  · exact ⟨le_refl 0, by omega⟩
  · obtain ⟨hb1, hb2, -⟩ := validateCell_none_facts (hcells y hy9) hgetD hne
    exact ⟨hb1, by omega⟩

theorem validate_none_noDups {m : Values} (h : validate m = none) : noDups m := by
  obtain ⟨hlen, hrows⟩ := validate_none_rows h
  intro v hv
  refine ⟨fun x => ?_, fun y => ?_, fun x y => ?_⟩
  · by_contra hcount
    push_neg at hcount
    have hpos : 0 < countValueInRow m x v := by omega
    unfold countValueInRow at hpos
    obtain ⟨c, hcmem, hcv⟩ := List.countP_pos.1 hpos
    have hcv' : c = v := by simpa using hcv
    subst hcv'
    obtain ⟨y, hy⟩ := List.mem_iff_get?.1 hcmem
    have hx9 : x < 9 := by
      by_contra hx
      rw [getRow_length_le m x (by omega)] at hy
      cases hy
    obtain ⟨hrl, hcells⟩ := validateRow_none_facts (hrows x hx9)
    have hy9 : y < 9 := by
      have := get?_some_lt hy
      omega
    have hgetD : (getRow m x).getD y 0 = c := by
      rw [getD_as_get? _ y 0, hy]
      rfl
    obtain ⟨-, -, hr, -, -⟩ := validateCell_none_facts (hcells y hy9) hgetD hv
    omega
  · by_contra hcount
    push_neg at hcount
    have hpos : 0 < countValueInColumn m y v := by omega
    unfold countValueInColumn at hpos
    obtain ⟨row, hrmem, hrv⟩ := List.countP_pos.1 hpos
    have hrv' : row.get? y = some v := by simpa using hrv
    obtain ⟨x, hx⟩ := List.mem_iff_get?.1 hrmem
    have hx9 : x < 9 := by
      have := get?_some_lt hx
      omega
    obtain ⟨hrl, hcells⟩ := validateRow_none_facts (hrows x hx9)
    have hrowx : getRow m x = row := getRow_eq_of_get? hx
    have hy9 : y < 9 := by
      have := get?_some_lt hrv'
      rw [hrowx] at hrl
      omega
    have hgetD : (getRow m x).getD y 0 = v := by
      rw [hrowx, getD_as_get? row y 0, hrv']
      rfl
    obtain ⟨-, -, -, hc, -⟩ := validateCell_none_facts (hcells y hy9) hgetD hv
    omega
  · by_contra hcount
    push_neg at hcount
    have hpos : 0 < countValueInGroup m x y v := by omega
    unfold countValueInGroup at hpos
    obtain ⟨p, hpmem, hpv⟩ := List.countP_pos.1 hpos
    have hpv' : getCell? m p.1 p.2 = some v := by simpa using hpv
    obtain ⟨hpx, hpy⟩ := getCell?_isSome_bounds hpv'
    have hx9 : p.1 < 9 := by omega
    obtain ⟨hrl, hcells⟩ := validateRow_none_facts (hrows p.1 hx9)
    have hy9 : p.2 < 9 := by omega
    have hgetD : (getRow m p.1).getD p.2 0 = v := getCell?_eq_getD hpv'
    obtain ⟨-, -, -, -, hg⟩ := validateCell_none_facts (hcells p.2 hy9) hgetD hv
    have hgeq : groupCells p.1 p.2 = groupCells x y := by
      rcases p with ⟨a, b⟩
      exact groupCells_eq_of_mem hpmem
    have hgc : countValueInGroup m p.1 p.2 v = countValueInGroup m x y v := by
      unfold countValueInGroup
      rw [hgeq]
    rw [hgc] at hg
    omega

/-! ### How the three counts change under a cell assignment. -/

theorem groupCells_explicit (x y : Nat) : groupCells x y =
    [(x / 3 * 3, y / 3 * 3), (x / 3 * 3, y / 3 * 3 + 1), (x / 3 * 3, y / 3 * 3 + 2),
     (x / 3 * 3 + 1, y / 3 * 3), (x / 3 * 3 + 1, y / 3 * 3 + 1), (x / 3 * 3 + 1, y / 3 * 3 + 2),
     (x / 3 * 3 + 2, y / 3 * 3), (x / 3 * 3 + 2, y / 3 * 3 + 1), (x / 3 * 3 + 2, y / 3 * 3 + 2)] := by
  rfl

theorem groupCells_nodup (x y : Nat) : (groupCells x y).Nodup := by
  rw [groupCells_explicit]
  simp only [List.nodup_cons, List.mem_cons, List.not_mem_nil, Prod.mk.injEq,
    List.nodup_nil, not_or, or_false, and_true, not_false_iff]
  repeat' apply And.intro
  all_goals first | trivial | omega

theorem countP_update_one {α} {f g : α → Bool} :
    ∀ (L : List α) (a : α), L.Nodup → a ∈ L → (∀ b ∈ L, b ≠ a → f b = g b) →
      L.countP f + (if g a then 1 else 0) = L.countP g + (if f a then 1 else 0) := by
  intro L
  induction L with
  | nil => intro a _ ha; cases ha
  | cons c t ih =>
    intro a hnd hmem hfg
    rw [List.nodup_cons] at hnd
    simp only [List.countP_cons]
    rcases List.mem_cons.1 hmem with rfl | hat
    · have ht : t.countP f = t.countP g := by
        apply countP_congr_mem
        intro b hb
        exact hfg b (List.mem_cons_of_mem a hb) (fun hba => hnd.1 (hba ▸ hb))
      rw [ht]
      omega
    · have hca : c ≠ a := fun hca => hnd.1 (hca ▸ hat)
      have hc := hfg c (List.mem_cons_self c t) hca
      have := ih a hnd.2 hat (fun b hb hba => hfg b (List.mem_cons_of_mem c hb) hba)
      rw [hc]
      omega

theorem countValueInRow_setCell_same {m : Values} {x y : Nat} (v : Int) {z : Int}
    (h : getCell? m x y = some z) (w : Int) :
    countValueInRow (setCell m x y v) x w + (if z == w then 1 else 0) =
      countValueInRow m x w + (if v == w then 1 else 0) := by
  obtain ⟨hx, hy⟩ := getCell?_isSome_bounds h
  unfold countValueInRow
  rw [getRow_setCell]
  rw [if_pos ⟨rfl, hx⟩]
  have h' : (getRow m x).get? y = some z := h
  exact countP_set_of_get? (fun c => c == w) (getRow m x) y v z h'

theorem countValueInRow_setCell_other {m : Values} {x y : Nat} {v : Int} {a : Nat}
    (ha : a ≠ x) (w : Int) :
    countValueInRow (setCell m x y v) a w = countValueInRow m a w := by
  unfold countValueInRow
  rw [getRow_setCell]
  rw [if_neg (fun hc => ha hc.1)]

theorem countValueInColumn_setCell_same {m : Values} {x y : Nat} (v : Int) {z : Int}
    (h : getCell? m x y = some z) (w : Int) :
    countValueInColumn (setCell m x y v) y w + (if z == w then 1 else 0) =
      countValueInColumn m y w + (if v == w then 1 else 0) := by
  obtain ⟨hx, hy⟩ := getCell?_isSome_bounds h
  unfold countValueInColumn setCell
  have hrow : m.get? x = some (getRow m x) := get?_eq_some_getRow m x hx
  have hcp := countP_set_of_get? (fun row => row.get? y == some w) m x
    ((getRow m x).set y v) (getRow m x) hrow
  have h1 : (((getRow m x).set y v).get? y == some w) = (v == w) := by
    rw [get?_set_self _ y v hy]
    rfl
  have h2 : ((getRow m x).get? y == some w) = (z == w) := by
    unfold getCell? at h
    rw [h]
    rfl
  simp only [h1, h2] at hcp
  exact hcp

theorem countValueInColumn_setCell_other {m : Values} {x y : Nat} {v : Int} {b : Nat}
    (hb : b ≠ y) (w : Int) :
    countValueInColumn (setCell m x y v) b w = countValueInColumn m b w := by
  unfold countValueInColumn setCell
  by_cases hx : x < m.length
  · have hrow : m.get? x = some (getRow m x) := get?_eq_some_getRow m x hx
    have hcp := countP_set_of_get? (fun row => row.get? b == some w) m x
      ((getRow m x).set y v) (getRow m x) hrow
    have h1 : (((getRow m x).set y v).get? b == some w) = ((getRow m x).get? b == some w) := by
      rw [get?_set_other _ y b v (Ne.symm hb)]
    simp only [h1] at hcp
    omega
  · rw [List.set_eq_of_length_le (by omega)]

theorem getCell?_setCell (m : Values) (x y : Nat) (v : Int) (a b : Nat) :
    getCell? (setCell m x y v) a b =
      if a = x ∧ b = y ∧ x < m.length ∧ y < (getRow m x).length then some v
      else getCell? m a b := by
  split
  · rename_i hc
    obtain ⟨rfl, rfl, hx, hy⟩ := hc
    exact getCell?_setCell_eq v (getCell?_of_lt hy)
  · rename_i hc
    by_cases hab : a = x ∧ b = y
    · obtain ⟨rfl, rfl⟩ := hab
      have : ¬(a < m.length ∧ b < (getRow m a).length) := by tauto
      have hcell : getCell? m a b = none := by
        unfold getCell?
        by_cases ha : a < m.length
        · rw [List.get?_eq_none.2 (by omega)]
        · rw [getRow_length_le m a (by omega)]
          rfl
      rw [setCell_out_of_range m a b v hcell]
    · exact getCell?_setCell_ne m x y v a b hab

theorem countValueInGroup_setCell_mem {m : Values} {x y : Nat} (v : Int) {z : Int}
    (h : getCell? m x y = some z) {a b : Nat} (hmem : (x, y) ∈ groupCells a b) (w : Int) :
    countValueInGroup (setCell m x y v) a b w + (if z == w then 1 else 0) =
      countValueInGroup m a b w + (if v == w then 1 else 0) := by
  obtain ⟨hx, hy⟩ := getCell?_isSome_bounds h
  unfold countValueInGroup
  have hupd := @countP_update_one (Nat × Nat)
    (fun p => getCell? (setCell m x y v) p.1 p.2 == some w)
    (fun p => getCell? m p.1 p.2 == some w) (groupCells a b) (x, y)
    (groupCells_nodup a b) hmem ?_
  · have h1 : (getCell? (setCell m x y v) x y == some w) = (v == w) := by
      rw [getCell?_setCell_eq v h]
      rfl
    have h2 : (getCell? m x y == some w) = (z == w) := by
      rw [h]
      rfl
    simp only [h1, h2] at hupd
    exact hupd
  · rintro ⟨c, d⟩ hcd hne
    simp only
    rw [getCell?_setCell_ne m x y v c d (by
      rintro ⟨rfl, rfl⟩
      exact hne rfl)]

theorem countValueInGroup_setCell_not_mem {m : Values} {x y : Nat} {v : Int} {a b : Nat}
    (hmem : (x, y) ∉ groupCells a b) (w : Int) :
    countValueInGroup (setCell m x y v) a b w = countValueInGroup m a b w := by
  unfold countValueInGroup
  apply countP_congr_mem
  rintro ⟨c, d⟩ hcd
  simp only
  rw [getCell?_setCell_ne m x y v c d (by
    rintro ⟨rfl, rfl⟩
    exact hmem hcd)]

/-! ### Preservation of the grid invariants. -/

theorem present_row_false {m : Values} {x : Nat} {v : Int}
    (h : isValuePresentInRow m x v = false) : countValueInRow m x v = 0 := by
  unfold isValuePresentInRow at h
  simp only [decide_eq_false_iff_not] at h
  omega

theorem present_col_false {m : Values} {y : Nat} {v : Int}
    (h : isValuePresentInColumn m y v = false) : countValueInColumn m y v = 0 := by
  unfold isValuePresentInColumn at h
  simp only [decide_eq_false_iff_not] at h
  omega

theorem present_group_false {m : Values} {x y : Nat} {v : Int}
    (h : isValuePresentInGroup m x y v = false) : countValueInGroup m x y v = 0 := by
  unfold isValuePresentInGroup at h
  simp only [decide_eq_false_iff_not] at h
  omega

theorem isValueValidInPosition_parts {m : Values} {x y : Nat} {v : Int} {flag : Bool}
    (h : isValueValidInPosition m x y v flag = true) :
    countValueInRow m x v = 0 ∧ countValueInColumn m y v = 0 ∧
      countValueInGroup m x y v = 0 := by
  unfold isValueValidInPosition at h
  simp only [Bool.and_eq_true, Bool.not_eq_true'] at h
  obtain ⟨⟨⟨h1, h2⟩, h3⟩, -⟩ := h
  exact ⟨present_row_false h1, present_col_false h2, present_group_false h3⟩

/-- The combined invariant maintained by every mutation of the solver. -/
def Inv (m : Values) : Prop := shape9 m ∧ cellBounds m ∧ noDups m

theorem validate_none_inv {m : Values} (h : validate m = none) : Inv m :=
  ⟨validate_none_shape9 h, validate_none_cellBounds h, validate_none_noDups h⟩

theorem shape9_setCell {m : Values} {x y : Nat} {v : Int} (h9 : shape9 m) :
    shape9 (setCell m x y v) := by
  by_cases hx : x < m.length
  · refine ⟨by rw [length_setCell]; exact h9.1, fun row hrow => ?_⟩
    rcases List.mem_or_eq_of_mem_set hrow with hm | rfl
    · exact h9.2 row hm
    · rw [List.length_set]
      exact h9.2 _ (List.get?_mem (get?_eq_some_getRow m x hx))
  · unfold setCell
    rw [List.set_eq_of_length_le (by omega)]
    exact h9

theorem cellBounds_setCell {m : Values} {x y : Nat} {v : Int} (hb : cellBounds m)
    (h0 : 0 ≤ v) (h9 : v ≤ 9) : cellBounds (setCell m x y v) := by
  intro row hrow c hc
  rcases List.mem_or_eq_of_mem_set hrow with hm | rfl
  · exact hb row hm c hc
  · rcases List.mem_or_eq_of_mem_set hc with hm2 | rfl
    · by_cases hx : x < m.length
      · exact hb _ (List.get?_mem (get?_eq_some_getRow m x hx)) c hm2
      · rw [getRow_length_le m x (by omega)] at hm2
        cases hm2
    · exact ⟨h0, h9⟩

theorem noDups_setCell_zero {m : Values} {x y : Nat} (hnd : noDups m) :
    noDups (setCell m x y 0) := by
  cases hc : getCell? m x y with
  | none => rw [setCell_out_of_range m x y 0 hc]; exact hnd
  | some z =>
    intro w hw
    obtain ⟨hr, hcl, hg⟩ := hnd w hw
    have hw0 : ((0 : Int) == w) = false := by
      rw [beq_eq_false_iff_ne]
      exact Ne.symm hw
    refine ⟨fun a => ?_, fun b => ?_, fun a b => ?_⟩
    · rcases eq_or_ne a x with rfl | hne
      · have heq := countValueInRow_setCell_same 0 hc w
        have hra := hr a
        by_cases hz : (z == w) = true <;>
          simp only [hz, hw0, if_true, Bool.false_eq_true, if_false] at heq <;> omega
      · rw [countValueInRow_setCell_other hne]
        exact hr a
    · rcases eq_or_ne b y with rfl | hne
      · have heq := countValueInColumn_setCell_same 0 hc w
        have hcb := hcl b
        by_cases hz : (z == w) = true <;>
          simp only [hz, hw0, if_true, Bool.false_eq_true, if_false] at heq <;> omega
      · rw [countValueInColumn_setCell_other hne]
        exact hcl b
    · by_cases hmem : (x, y) ∈ groupCells a b
      · have heq := countValueInGroup_setCell_mem 0 hc hmem w
        have hgab := hg a b
        by_cases hz : (z == w) = true <;>
          simp only [hz, hw0, if_true, Bool.false_eq_true, if_false] at heq <;> omega
      · rw [countValueInGroup_setCell_not_mem hmem]
        exact hg a b

theorem noDups_setCell_accept {m : Values} {x y : Nat} {v : Int} (hnd : noDups m)
    (h0 : getCell? m x y = some 0) (hr0 : countValueInRow m x v = 0)
    (hc0 : countValueInColumn m y v = 0) (hg0 : countValueInGroup m x y v = 0) :
    noDups (setCell m x y v) := by
  intro w hw
  obtain ⟨hr, hcl, hg⟩ := hnd w hw
  have hw0 : ((0 : Int) == w) = false := by
    rw [beq_eq_false_iff_ne]
    exact Ne.symm hw
  refine ⟨fun a => ?_, fun b => ?_, fun a b => ?_⟩
  · rcases eq_or_ne a x with rfl | hne
    · have heq := countValueInRow_setCell_same v h0 w
      have hra := hr a
      by_cases hvw : (v == w) = true
      · have hvw' : v = w := by simpa using hvw
        have hr0' : countValueInRow m a w = 0 := hvw' ▸ hr0
        simp only [hvw, hw0, if_true, Bool.false_eq_true, if_false] at heq
        omega
      · simp only [hvw, hw0, Bool.false_eq_true, if_false] at heq
        omega
    · rw [countValueInRow_setCell_other hne]
      exact hr a
  · rcases eq_or_ne b y with rfl | hne
    · have heq := countValueInColumn_setCell_same v h0 w
      have hcb := hcl b
      by_cases hvw : (v == w) = true
      · have hvw' : v = w := by simpa using hvw
        have hc0' : countValueInColumn m b w = 0 := hvw' ▸ hc0
        simp only [hvw, hw0, if_true, Bool.false_eq_true, if_false] at heq
        omega
      · simp only [hvw, hw0, Bool.false_eq_true, if_false] at heq
        omega
    · rw [countValueInColumn_setCell_other hne]
      exact hcl b
  · by_cases hmem : (x, y) ∈ groupCells a b
    · have heq := countValueInGroup_setCell_mem v h0 hmem w
      have hgab := hg a b
      have hgroups : groupCells x y = groupCells a b := groupCells_eq_of_mem hmem
      by_cases hvw : (v == w) = true
      · have hvw' : v = w := by simpa using hvw
        have hg0' : countValueInGroup m a b w = 0 := by
          have : countValueInGroup m a b w = countValueInGroup m x y w := by
            unfold countValueInGroup
            rw [hgroups]
          rw [this, ← hvw']
          exact hg0
        simp only [hvw, hw0, if_true, Bool.false_eq_true, if_false] at heq
        omega
      · simp only [hvw, hw0, Bool.false_eq_true, if_false] at heq
        omega
    · rw [countValueInGroup_setCell_not_mem hmem]
      exact hg a b

theorem inv_setCell_zero {m : Values} {x y : Nat} (h : Inv m) : Inv (setCell m x y 0) :=
  ⟨shape9_setCell h.1, cellBounds_setCell h.2.1 (le_refl 0) (by norm_num),
    noDups_setCell_zero h.2.2⟩

theorem inv_setCell_accept {m : Values} {x y : Nat} {v : Int} (h : Inv m)
    (h0 : getCell? m x y = some 0) (hr0 : countValueInRow m x v = 0)
    (hc0 : countValueInColumn m y v = 0) (hg0 : countValueInGroup m x y v = 0)
    (hv1 : 0 ≤ v) (hv9 : v ≤ 9) : Inv (setCell m x y v) :=
  ⟨shape9_setCell h.1, cellBounds_setCell h.2.1 hv1 hv9,
    noDups_setCell_accept h.2.2 h0 hr0 hc0 hg0⟩

theorem sweepRow_inv {x : Nat} :
    ∀ (ys : List Nat) (m : Values) (changed : Bool), Inv m →
      Inv (sweepRow m x ys changed).1 := by
  intro ys
  induction ys with
  | nil => intro m c h; exact h
  | cons y rest ih =>
    intro m c h
    simp only [sweepRow]
    by_cases h0 : getCell? m x y = some 0
    · rw [if_pos h0]
      cases hfc : findCandidate m x y with
      | none => exact ih m c h
      | some v =>
        obtain ⟨k, hk1, hk9, rfl, hvalid, -⟩ := findCandidate_eq_some_iff.1 hfc
        obtain ⟨hr0, hc0, hg0⟩ := isValueValidInPosition_parts hvalid
        exact ih _ true (inv_setCell_accept h h0 hr0 hc0 hg0 (by omega) (by omega))
    · rw [if_neg h0]
      exact ih m c h

theorem sweepRows_inv :
    ∀ (xs : List Nat) (m : Values) (changed : Bool), Inv m →
      Inv (sweepRows m xs changed).1 := by
  intro xs
  induction xs with
  | nil => intro m c h; exact h
  | cons x rest ih =>
    intro m c h
    simp only [sweepRows]
    exact ih _ _ (sweepRow_inv _ m c h)

theorem sweepPass_inv {m : Values} (h : Inv m) : Inv (sweepPass m).1 :=
  sweepRows_inv _ m false h

theorem sweepLoopO_inv :
    ∀ (fuel : Nat) (m m' : Values), sweepLoopO fuel m = some m' → Inv m → Inv m' := by
  intro fuel
  induction fuel with
  | zero => intro m m' h; cases h
  | succ f ih =>
    intro m m' h hInv
    unfold sweepLoopO at h
    by_cases hs : isSolved m = true
    · rw [if_pos hs] at h
      cases h
      exact hInv
    · rw [if_neg hs] at h
      by_cases hch : (sweepPass m).2 = true
      · rw [if_pos hch] at h
        exact ih _ _ h (sweepPass_inv hInv)
      · rw [if_neg hch] at h
        cases h
        exact sweepPass_inv hInv

theorem sweepFix_inv {m : Values} (h : Inv m) : Inv (sweepFix m) := by
  unfold sweepFix
  cases hs : sweepLoopO (countZeros m + 1) m with
  | none => exact h
  | some m' => exact sweepLoopO_inv _ m m' hs h

theorem trialStep_next_inv {s s' : TState} (h : trialStep s = StepRes.next s')
    (hInv : Inv s.m) : Inv s'.m := by
  unfold trialStep at h
  by_cases h1 : s.idx > (s.ps.length : Int) - 1
  · rw [if_pos h1] at h; cases h
  · rw [if_neg h1] at h
    by_cases h2 : s.idx < 0
    · rw [if_pos h2] at h; cases h
    · rw [if_neg h2] at h
      cases hget : s.ps.get? s.idx.toNat with
      | none => rw [hget] at h; cases h
      | some e =>
        rw [hget] at h
        simp only at h
        have hm1 : Inv (setCell s.m e.x e.y 0) := inv_setCell_zero hInv
        cases hfv : findTrialValue (setCell s.m e.x e.y 0) e with
        | some v =>
          rw [hfv] at h
          cases h
          obtain ⟨k, hk1, hk9, rfl, -, hvalid⟩ := findTrialValue_eq_some hfv
          obtain ⟨hr0, hc0, hg0⟩ := isValueValidInPosition_parts hvalid
          cases hc : getCell? (setCell s.m e.x e.y 0) e.x e.y with
          | none =>
            simp only
            rw [setCell_out_of_range _ _ _ _ hc]
            exact hm1
          | some z =>
            have hz : z = 0 := by
              cases hcold : getCell? s.m e.x e.y with
              | none =>
                rw [setCell_out_of_range _ _ _ _ hcold] at hc
                rw [hc] at hcold
                cases hcold
              | some z' =>
                have := getCell?_setCell_eq 0 hcold
                rw [this] at hc
                cases hc
                rfl
            subst hz
            exact inv_setCell_accept hm1 hc hr0 hc0 hg0 (by omega) (by omega)
        | none =>
          rw [hfv] at h
          by_cases hsv : isSolved (setCell s.m e.x e.y 0) = true
          · rw [if_pos hsv] at h
            cases h
            exact hm1
          · rw [if_neg hsv] at h
            cases h
            exact inv_setCell_zero hm1

theorem trialLoop_inv :
    ∀ (fuel : Nat) (s : TState) (r : SolveResult), trialLoop fuel s = some r →
      Inv s.m → Inv (gridOf r) := by
  intro fuel
  induction fuel with
  | zero => intro s r h; cases h
  | succ f ih =>
    intro s r h hInv
    unfold trialLoop at h
    cases hst : trialStep s with
    | finished m =>
      rw [hst] at h
      cases h
      have : m = s.m := by
        unfold trialStep at hst
        by_cases h1 : s.idx > (s.ps.length : Int) - 1
        · rw [if_pos h1] at hst
          cases hst
          rfl
        · rw [if_neg h1] at hst
          by_cases h2 : s.idx < 0
          · rw [if_pos h2] at hst; cases hst
          · rw [if_neg h2] at hst
            cases hget : s.ps.get? s.idx.toNat with
            | none => rw [hget] at hst; cases hst
            | some e =>
              rw [hget] at hst
              simp only at hst
              cases hfv : findTrialValue (setCell s.m e.x e.y 0) e with
              | some v => rw [hfv] at hst; cases hst
              | none =>
                rw [hfv] at hst
                by_cases hsv : isSolved (setCell s.m e.x e.y 0) = true
                · rw [if_pos hsv] at hst; cases hst
                · rw [if_neg hsv] at hst; cases hst
      rw [this]
      exact hInv
    | fault m =>
      rw [hst] at h
      cases h
      have : m = s.m := by
        unfold trialStep at hst
        by_cases h1 : s.idx > (s.ps.length : Int) - 1
        · rw [if_pos h1] at hst; cases hst
        · rw [if_neg h1] at hst
          by_cases h2 : s.idx < 0
          · rw [if_pos h2] at hst
            cases hst
            rfl
          · rw [if_neg h2] at hst
            cases hget : s.ps.get? s.idx.toNat with
            | none =>
              rw [hget] at hst
              cases hst
              rfl
            | some e =>
              rw [hget] at hst
              simp only at hst
              cases hfv : findTrialValue (setCell s.m e.x e.y 0) e with
              | some v => rw [hfv] at hst; cases hst
              | none =>
                rw [hfv] at hst
                by_cases hsv : isSolved (setCell s.m e.x e.y 0) = true
                · rw [if_pos hsv] at hst; cases hst
                · rw [if_neg hsv] at hst; cases hst
      rw [this]
      exact hInv
    | next s' =>
      rw [hst] at h
      exact ih s' r h (trialStep_next_inv hst hInv)

theorem solve_inv {m : Values} (hval : validate m = none) (fuel : Nat) (r : SolveResult)
    (h : solve fuel m = some r) : Inv (gridOf r) := by
  unfold solve at h
  have hInv1 : Inv (sweepFix m) := sweepFix_inv (validate_none_inv hval)
  by_cases hs : isSolved (sweepFix m) = true
  · rw [if_pos hs] at h
    cases h
    exact hInv1
  · rw [if_neg hs] at h
    exact trialLoop_inv fuel _ r h hInv1

/-! ### Pigeonhole: a complete grid satisfying the invariant is a Latin grid. -/

theorem isSolved_cells {m : Values} (h : isSolved m = true) :
    ∀ row ∈ m, ∀ c ∈ row, c ≠ 0 := by
  unfold isSolved at h
  rw [List.all_eq_true] at h
  intro row hrow c hc
  have := h row hrow
  rw [List.all_eq_true] at this
  have := this c hc
  simpa using this

theorem sum_map_add {α} (L : List α) (f g : α → Nat) :
    (L.map (fun v => f v + g v)).sum = (L.map f).sum + (L.map g).sum := by
  induction L with
  | nil => rfl
  | cons a t ih =>
    simp only [List.map_cons, List.sum_cons, ih]
    omega

theorem indicator_sum_one {c : Int} (h1 : 1 ≤ c) (h9 : c ≤ 9) :
    ((List.range' 1 9).map (fun v : Nat => if (c == (v : Int)) = true then 1 else 0)).sum
      = 1 := by
  interval_cases c <;> decide

theorem row_counts_sum (row : List Int) (hc : ∀ c ∈ row, 1 ≤ c ∧ c ≤ 9) :
    ((List.range' 1 9).map (fun v : Nat => row.countP (fun c => c == (v : Int)))).sum
      = row.length := by
  induction row with
  | nil => simp
  | cons c t ih =>
    have hct := hc c (List.mem_cons_self c t)
    have hrest : ∀ c' ∈ t, 1 ≤ c' ∧ c' ≤ 9 := fun c' hc' => hc c' (List.mem_cons_of_mem c hc')
    simp only [List.countP_cons]
    rw [sum_map_add (List.range' 1 9) (fun v : Nat => t.countP (fun c' => c' == (v : Int)))
      (fun v : Nat => if (c == (v : Int)) = true then 1 else 0)]
    rw [ih hrest, indicator_sum_one hct.1 hct.2]
    simp

theorem col_counts_sum (m : Values) (y : Nat)
    (h : ∀ row ∈ m, ∃ c, row.get? y = some c ∧ 1 ≤ c ∧ c ≤ 9) :
    ((List.range' 1 9).map
      (fun v : Nat => m.countP (fun row => row.get? y == some (v : Int)))).sum
      = m.length := by
  induction m with
  | nil => simp
  | cons row t ih =>
    obtain ⟨c, hcy, hc1, hc9⟩ := h row (List.mem_cons_self row t)
    have hrest : ∀ row' ∈ t, ∃ c, row'.get? y = some c ∧ 1 ≤ c ∧ c ≤ 9 :=
      fun row' hr => h row' (List.mem_cons_of_mem row hr)
    simp only [List.countP_cons]
    rw [sum_map_add (List.range' 1 9)
      (fun v : Nat => t.countP (fun row' => row'.get? y == some (v : Int)))
      (fun v : Nat => if (row.get? y == some (v : Int)) = true then 1 else 0)]
    have hind : ∀ v : Nat, ((row.get? y == some (v : Int))) = (c == (v : Int)) := by
      intro v
      rw [hcy]
      rfl
    simp only [hind]
    rw [ih hrest, indicator_sum_one hc1 hc9]
    simp

theorem group_counts_sum (m : Values) (L : List (Nat × Nat))
    (h : ∀ p ∈ L, ∃ c, getCell? m p.1 p.2 = some c ∧ 1 ≤ c ∧ c ≤ 9) :
    ((List.range' 1 9).map
      (fun v : Nat => L.countP (fun p => getCell? m p.1 p.2 == some (v : Int)))).sum
      = L.length := by
  induction L with
  | nil => simp
  | cons p t ih =>
    obtain ⟨c, hcy, hc1, hc9⟩ := h p (List.mem_cons_self p t)
    have hrest : ∀ p' ∈ t, ∃ c, getCell? m p'.1 p'.2 = some c ∧ 1 ≤ c ∧ c ≤ 9 :=
      fun p' hp => h p' (List.mem_cons_of_mem p hp)
    simp only [List.countP_cons]
    rw [sum_map_add (List.range' 1 9)
      (fun v : Nat => t.countP (fun p' => getCell? m p'.1 p'.2 == some (v : Int)))
      (fun v : Nat => if (getCell? m p.1 p.2 == some (v : Int)) = true then 1 else 0)]
    have hind : ∀ v : Nat, ((getCell? m p.1 p.2 == some (v : Int))) = (c == (v : Int)) := by
      intro v
      rw [hcy]
      rfl
    simp only [hind]
    rw [ih hrest, indicator_sum_one hc1 hc9]
    simp

theorem sum_le_length (l : List Nat) (hle : ∀ x ∈ l, x ≤ 1) : l.sum ≤ l.length := by
  induction l with
  | nil => simp
  | cons a t ih =>
    simp only [List.sum_cons, List.length_cons]
    have := hle a (List.mem_cons_self a t)
    have := ih (fun x hx => hle x (List.mem_cons_of_mem a hx))
    omega

theorem all_le_one_sum_eq (l : List Nat) (hle : ∀ x ∈ l, x ≤ 1)
    (hsum : l.sum = l.length) : ∀ x ∈ l, x = 1 := by
  induction l with
  | nil => intro x hx; cases hx
  | cons a t ih =>
    simp only [List.sum_cons, List.length_cons] at hsum
    have ha := hle a (List.mem_cons_self a t)
    have hrest := fun x hx => hle x (List.mem_cons_of_mem a hx)
    have htle := sum_le_length t hrest
    have ha1 : a = 1 := by omega
    have hts : t.sum = t.length := by omega
    intro x hx
    rcases List.mem_cons.1 hx with rfl | hxt
    · exact ha1
    · exact ih hrest hts x hxt

/-- In a grid that satisfies the invariant and is complete, every cell value
lies in 1–9. -/
theorem inv_solved_cell {m : Values} (hInv : Inv m) (hs : isSolved m = true)
    {x y : Nat} (hx : x < m.length) (hy : y < (getRow m x).length) :
    ∃ c, getCell? m x y = some c ∧ 1 ≤ c ∧ c ≤ 9 := by
  have hrowmem : getRow m x ∈ m := List.get?_mem (get?_eq_some_getRow m x hx)
  have hcell := getCell?_of_lt hy
  have hcmem : (getRow m x).getD y 0 ∈ getRow m x := by
    rw [getD_as_get? _ y 0, List.get?_eq_get hy]
    simp only [Option.getD_some]
    exact List.get_mem _ _ _
  have hb := hInv.2.1 _ hrowmem _ hcmem
  have hnz := isSolved_cells hs _ hrowmem _ hcmem
  exact ⟨(getRow m x).getD y 0, hcell, by omega, hb.2⟩

/-- The completeness invariant: a complete grid satisfying the invariant has
every value 1–9 exactly once in every row, column and 3×3 group. -/
theorem inv_solved_counts {m : Values} (hInv : Inv m) (hs : isSolved m = true)
    (v : Int) (hv1 : 1 ≤ v) (hv9 : v ≤ 9) :
    (∀ x, x < 9 → countValueInRow m x v = 1) ∧
      (∀ y, y < 9 → countValueInColumn m y v = 1) ∧
      (∀ x y, x < 9 → y < 9 → countValueInGroup m x y v = 1) := by
  obtain ⟨⟨hlen, hrows⟩, hbounds, hnd⟩ := hInv
  have hv0 : v ≠ 0 := by omega
  have hvnat : ((v.toNat : Nat) : Int) = v := Int.toNat_of_nonneg (by omega)
  have hvmem : v.toNat ∈ List.range' 1 9 := by
    have h19 : List.range' 1 9 = [1, 2, 3, 4, 5, 6, 7, 8, 9] := rfl
    rw [h19]
    simp only [List.mem_cons, List.not_mem_nil, or_false]
    omega
  refine ⟨fun x hx => ?_, fun y hy => ?_, fun x y hx hy => ?_⟩
  · have hxlen : x < m.length := by omega
    have hrl : (getRow m x).length = 9 :=
      rowLen9 ⟨hlen, hrows⟩ hxlen
    have hcells : ∀ c ∈ getRow m x, 1 ≤ c ∧ c ≤ 9 := by
      intro c hcmem
      have hrowmem : getRow m x ∈ m := List.get?_mem (get?_eq_some_getRow m x hxlen)
      have := hbounds _ hrowmem _ hcmem
      have := isSolved_cells hs _ hrowmem _ hcmem
      omega
    have hsum := row_counts_sum (getRow m x) hcells
    rw [hrl] at hsum
    have hall := all_le_one_sum_eq
      ((List.range' 1 9).map (fun k : Nat => (getRow m x).countP (fun c => c == (k : Int))))
      ?_ ?_
    · have := hall ((getRow m x).countP (fun c => c == ((v.toNat : Nat) : Int)))
        (List.mem_map_of_mem _ hvmem)
      rw [hvnat] at this
      exact this
    · intro n hn
      obtain ⟨k, hk, rfl⟩ := List.mem_map.1 hn
      simp only [List.mem_range'] at hk
      obtain ⟨i, hi, rfl⟩ := hk
      have : ((1 + 1 * i : Nat) : Int) ≠ 0 := by omega
      exact (hnd _ this).1 x
    · rw [hsum, List.length_map]
      rfl
  · have hcol : ∀ row ∈ m, ∃ c, row.get? y = some c ∧ 1 ≤ c ∧ c ≤ 9 := by
      intro row hrow
      obtain ⟨x, hxget⟩ := List.mem_iff_get?.1 hrow
      have hxlen : x < m.length := get?_some_lt hxget
      have hroweq : getRow m x = row := getRow_eq_of_get? hxget
      have hrl : row.length = 9 := hroweq ▸ rowLen9 ⟨hlen, hrows⟩ hxlen
      have hylen : y < (getRow m x).length := by
        rw [hroweq, hrl]
        omega
      obtain ⟨c, hc, hc1, hc9⟩ := inv_solved_cell ⟨⟨hlen, hrows⟩, hbounds, hnd⟩ hs hxlen hylen
      refine ⟨c, ?_, hc1, hc9⟩
      unfold getCell? at hc
      rw [hroweq] at hc
      exact hc
    have hsum := col_counts_sum m y hcol
    rw [hlen] at hsum
    have hall := all_le_one_sum_eq
      ((List.range' 1 9).map (fun k : Nat => m.countP (fun row => row.get? y == some (k : Int))))
      ?_ ?_
    · have := hall (m.countP (fun row => row.get? y == some ((v.toNat : Nat) : Int)))
        (List.mem_map_of_mem _ hvmem)
      rw [hvnat] at this
      exact this
    · intro n hn
      obtain ⟨k, hk, rfl⟩ := List.mem_map.1 hn
      simp only [List.mem_range'] at hk
      obtain ⟨i, hi, rfl⟩ := hk
      have : ((1 + 1 * i : Nat) : Int) ≠ 0 := by omega
      exact (hnd _ this).2.1 y
    · rw [hsum, List.length_map]
      rfl
  · have hgrp : ∀ p ∈ groupCells x y, ∃ c, getCell? m p.1 p.2 = some c ∧ 1 ≤ c ∧ c ≤ 9 := by
      intro p hp
      obtain ⟨hp1, hp2⟩ := groupCells_bounds hx hy hp
      have hp1len : p.1 < m.length := by omega
      exact inv_solved_cell ⟨⟨hlen, hrows⟩, hbounds, hnd⟩ hs hp1len
        (by rw [rowLen9 ⟨hlen, hrows⟩ hp1len]; omega)
    have hsum := group_counts_sum m (groupCells x y) hgrp
    have hglen : (groupCells x y).length = 9 := by
      rw [groupCells_explicit]
      rfl
    rw [hglen] at hsum
    have hall := all_le_one_sum_eq
      ((List.range' 1 9).map
        (fun k : Nat => (groupCells x y).countP (fun p => getCell? m p.1 p.2 == some (k : Int))))
      ?_ ?_
    · have := hall ((groupCells x y).countP
        (fun p => getCell? m p.1 p.2 == some ((v.toNat : Nat) : Int)))
        (List.mem_map_of_mem _ hvmem)
      rw [hvnat] at this
      exact this
    · intro n hn
      obtain ⟨k, hk, rfl⟩ := List.mem_map.1 hn
      simp only [List.mem_range'] at hk
      obtain ⟨i, hi, rfl⟩ := hk
      have : ((1 + 1 * i : Nat) : Int) ≠ 0 := by omega
      exact (hnd _ this).2.2 x y
    · rw [hsum, List.length_map]
      rfl

/-! ### Remaining helper lemmas for the claim theorems. -/

theorem validateCell_ne_structural (m : Values) (x y : Nat) :
    validateCell m x y ≠ some GameError.structural := by
  intro h
  simp only [validateCell] at h
  by_cases h0 : (getRow m x).getD y 0 = 0
  · rw [if_pos h0] at h
    cases h
  · rw [if_neg h0] at h
    split at h
    · simp at h
    · cases h

theorem sweepLoopO_succ (fuel : Nat) (m : Values) :
    sweepLoopO (fuel + 1) m =
      if isSolved m then some m
      else
        let p := sweepPass m
        if p.2 then sweepLoopO fuel p.1 else some p.1 := rfl

theorem trialLoop_succ (fuel : Nat) (s : TState) :
    trialLoop (fuel + 1) s =
      match trialStep s with
      | .finished m => some (.ok m)
      | .fault m => some (.fault m)
      | .next s' => trialLoop fuel s' := rfl

theorem sweepFix_of_solved {m : Values} (hs : isSolved m = true) : sweepFix m = m := by
  unfold sweepFix
  rw [sweepLoopO_succ, if_pos hs]
  rfl

theorem trialStep_fault_of_neg {s : TState} (h : s.idx < 0) :
    trialStep s = StepRes.fault s.m := by
  unfold trialStep
  rw [if_neg (by omega), if_pos h]

theorem grids_ext {ma mb : Values} (hlen : ma.length = mb.length)
    (hrow : ∀ i, i < ma.length → (getRow ma i).length = (getRow mb i).length)
    (hcell : ∀ i j, getCell? ma i j = getCell? mb i j) : ma = mb := by
  apply List.ext_get?
  intro n
  by_cases hn : n < ma.length
  · rw [get?_eq_some_getRow ma n hn, get?_eq_some_getRow mb n (by omega)]
    congr 1
    apply List.ext_get?
    intro j
    exact hcell n j
  · rw [List.get?_eq_none.2 (by omega), List.get?_eq_none.2 (by omega)]

/-! ### Claim theorems. -/

/-- C1: for every grid that passed validation, if `solve` returns and the grid
is complete afterwards (`isSolved` true), then every row, every column and
every 3×3 group contains each value 1–9 exactly once. -/
theorem C1_solve_complete_latin {m : Values} (fuel : Nat) (r : SolveResult)
    (hval : validate m = none) (hrun : solve fuel m = some r)
    (hdone : isSolved (gridOf r) = true) (v : Int) (hv1 : 1 ≤ v) (hv9 : v ≤ 9) :
    (∀ x, x < 9 → countValueInRow (gridOf r) x v = 1) ∧
      (∀ y, y < 9 → countValueInColumn (gridOf r) y v = 1) ∧
      (∀ x y, x < 9 → y < 9 → countValueInGroup (gridOf r) x y v = 1) :=
  inv_solved_counts (solve_inv hval fuel r hrun) hdone v hv1 hv9

/-- Witness for C1 at a concrete puzzle: `nearFull` validates, solves to the
complete `fullGrid`, and the instantiated conclusion holds there. -/
theorem C1_witness :
    validate nearFull = none ∧ solve 1 nearFull = some (SolveResult.ok fullGrid) ∧
      isSolved fullGrid = true ∧ countValueInRow fullGrid 0 5 = 1 ∧
      countValueInColumn fullGrid 0 5 = 1 ∧ countValueInGroup fullGrid 0 0 5 = 1 := by
  have h1 : validate nearFull = none := by decide
  have h2 : solve 1 nearFull = some (SolveResult.ok fullGrid) := by decide
  have h3 : isSolved fullGrid = true := by decide
  have hmain := C1_solve_complete_latin 1 (SolveResult.ok fullGrid) h1 h2 h3 5
    (by norm_num) (by norm_num)
  exact ⟨h1, h2, h3, hmain.1 0 (by norm_num), hmain.2.1 0 (by norm_num),
    hmain.2.2 0 0 (by norm_num) (by norm_num)⟩

/-- C2 counterexample: `crashGrid` passes validation, yet `solve` raises the
TypeError (`fault`) when the backtracking search exhausts — it does not return
normally.  The grid at the fault is the last partial state. -/
theorem C2_counterexample :
    validate crashGrid = none ∧ solve 2 crashGrid = some (SolveResult.fault crashGrid) := by
  constructor
  · decide
  · decide

/-- C2 amended: when the cursor has retreated below the first frontier entry
(`nextIndex < 0`), the next iteration of the trial-and-error loop reads the
missing entry `unfilledPositions[nextIndex]` and raises the TypeError, leaving
the grid in its last partial state; `solve` therefore propagates an error
rather than returning normally on search exhaustion. -/
theorem C2_amended (s : TState) (h : s.idx < 0) :
    trialStep s = StepRes.fault s.m ∧
      ∀ fuel, trialLoop (fuel + 1) s = some (SolveResult.fault s.m) := by
  have hf := trialStep_fault_of_neg h
  refine ⟨hf, fun fuel => ?_⟩
  rw [trialLoop_succ, hf]

/-- Witness for C2's amended claim at a concrete exhausted state. -/
theorem C2_witness :
    trialLoop 1 ⟨crashGrid, [⟨0, 8, []⟩], -1⟩ = some (SolveResult.fault crashGrid) :=
  (C2_amended ⟨crashGrid, [⟨0, 8, []⟩], -1⟩ (by decide)).2 0

/-- C3 counterexample: for the matrix with 5 at `(0,0)` and `(0,1)` and zeros
elsewhere, validation reports the coordinate of the FIRST occurrence `(0,0)`,
not the second occurrence `(0,1)` claimed by the spec. -/
theorem C3_counterexample :
    validate (twoFivesGrid 0 1) = some (GameError.constraint 0 0) ∧
      validate (twoFivesGrid 0 1) ≠ some (GameError.constraint 0 1) := by
  constructor
  · decide
  · decide

/-- C3 amended: for every matrix that is all zeros except value 5 at two cells
`(0,c1)` and `(0,c2)` of row 0 with `c1 < c2`, construction fails with a
constraint error whose reported coordinate is the FIRST (earlier-column)
occurrence `(0,c1)`. -/
theorem C3_amended :
    ∀ (c1 c2 : Fin 9), (c1 : Nat) < (c2 : Nat) →
      validate (twoFivesGrid c1 c2) = some (GameError.constraint 0 c1) := by
  decide

/-- Witness for C3's amended claim at a concrete column pair. -/
theorem C3_witness :
    validate (twoFivesGrid 2 5) = some (GameError.constraint 0 2) :=
  C3_amended 2 5 (by decide)

/-- C6 counterexample: `raggedDupGrid` is not 9×9 (its second row has eight
columns), yet construction fails with a constraint error, not a structural
one — so "not 9×9 implies StructuralError" is false. -/
theorem C6_counterexample :
    ¬ shape9 raggedDupGrid ∧
      validate raggedDupGrid = some (GameError.constraint 0 0) := by
  constructor
  · decide
  · decide

/-- C6 amended: a StructuralError is reported only for a non-9×9 matrix, and an
exactly-9×9 matrix never fails with StructuralError (it can only fail the
per-cell constraint check); a non-9×9 matrix always fails construction, but
the failure may be a ConstraintError when a constraint violation in an earlier
row is reached before the offending row's length check. -/
theorem C6_amended (m : Values) :
    (validate m = some GameError.structural → ¬ shape9 m) ∧
      (shape9 m → validate m ≠ some GameError.structural) ∧
      (¬ shape9 m → validate m ≠ none) := by
  have ha : validate m = some GameError.structural → ¬ shape9 m := by
    intro hv h9
    unfold validate at hv
    rw [if_neg (by have := h9.1; omega)] at hv
    obtain ⟨x, hx, hvx⟩ := exists_of_findSome?_eq_some' hv
    simp only [List.mem_range] at hx
    unfold validateRow at hvx
    by_cases hrl : (getRow m x).length ≠ 9
    · exact hrl (rowLen9 h9 (by have := h9.1; omega))
    · rw [if_neg hrl] at hvx
      obtain ⟨y, hy, hvy⟩ := exists_of_findSome?_eq_some' hvx
      exact validateCell_ne_structural m x y hvy
  exact ⟨ha, fun h9 hv => ha hv h9, fun h9 hv => h9 (validate_none_shape9 hv)⟩

/-- Witness for C6's amended claim: an eight-row matrix fails construction. -/
theorem C6_witness : validate eightRowsGrid ≠ none :=
  (C6_amended eightRowsGrid).2.2 (by decide)

/-- C8: calling `solve` on an already-complete grid changes no cell — the
result is `ok` with the identical grid — and the grid is complete afterwards. -/
theorem C8_solve_noop_on_complete {m : Values} (hs : isSolved m = true) (fuel : Nat) :
    solve fuel m = some (SolveResult.ok m) ∧ isSolved (gridOf (SolveResult.ok m)) = true := by
  constructor
  · unfold solve
    rw [sweepFix_of_solved hs, if_pos hs]
  · exact hs

/-- Witness for C8 at the complete `fullGrid`. -/
theorem C8_witness :
    solve 7 fullGrid = some (SolveResult.ok fullGrid) ∧
      isSolved (gridOf (SolveResult.ok fullGrid)) = true :=
  C8_solve_noop_on_complete (by decide) 7

/-- C9: solve is deterministic — two independent grids built from equal copies
of the same matrix (equal shape and equal cells) solve to identical results. -/
theorem C9_solve_deterministic (fuel : Nat) (ma mb : Values)
    (hlen : ma.length = mb.length)
    (hrow : ∀ i, i < ma.length → (getRow ma i).length = (getRow mb i).length)
    (hcell : ∀ i j, getCell? ma i j = getCell? mb i j) :
    solve fuel ma = solve fuel mb := by
  rw [grids_ext hlen hrow hcell]

/-- Witness for C9: two independently constructed equal grids. -/
theorem C9_witness : solve 11 copyGridA = solve 11 copyGridB :=
  C9_solve_deterministic 11 copyGridA copyGridB (by decide)
    (by decide)
    (fun i j => by
      have h : copyGridA = copyGridB := by decide
      rw [h])

/-! ### The backtracking step and frame lemmas. -/

theorem isSolved_false_of_zero {m : Values} {x y : Nat}
    (h : getCell? m x y = some 0) : isSolved m = false := by
  cases hs : isSolved m with
  | false => rfl
  | true =>
    exfalso
    obtain ⟨hxm, hym⟩ := getCell?_isSome_bounds h
    have hrowmem : getRow m x ∈ m := List.get?_mem (get?_eq_some_getRow m x hxm)
    have h0mem : (0 : Int) ∈ getRow m x := List.get?_mem h
    exact isSolved_cells hs _ hrowmem _ h0mem rfl

theorem trialStep_finished_eq {s : TState} {m : Values}
    (h : trialStep s = StepRes.finished m) : m = s.m := by
  unfold trialStep at h
  by_cases h1 : s.idx > (s.ps.length : Int) - 1
  · rw [if_pos h1] at h
    cases h
    rfl
  · rw [if_neg h1] at h
    by_cases h2 : s.idx < 0
    · rw [if_pos h2] at h; cases h
    · rw [if_neg h2] at h
      cases hget : s.ps.get? s.idx.toNat with
      | none => rw [hget] at h; cases h
      | some e =>
        rw [hget] at h
        simp only at h
        cases hfv : findTrialValue (setCell s.m e.x e.y 0) e with
        | some v => rw [hfv] at h; cases h
        | none =>
          rw [hfv] at h
          by_cases hsv : isSolved (setCell s.m e.x e.y 0) = true
          · rw [if_pos hsv] at h; cases h
          · rw [if_neg hsv] at h; cases h

theorem trialStep_fault_eq {s : TState} {m : Values}
    (h : trialStep s = StepRes.fault m) : m = s.m := by
  unfold trialStep at h
  by_cases h1 : s.idx > (s.ps.length : Int) - 1
  · rw [if_pos h1] at h; cases h
  · rw [if_neg h1] at h
    by_cases h2 : s.idx < 0
    · rw [if_pos h2] at h
      cases h
      rfl
    · rw [if_neg h2] at h
      cases hget : s.ps.get? s.idx.toNat with
      | none =>
        rw [hget] at h
        cases h
        rfl
      | some e =>
        rw [hget] at h
        simp only at h
        cases hfv : findTrialValue (setCell s.m e.x e.y 0) e with
        | some v => rw [hfv] at h; cases h
        | none =>
          rw [hfv] at h
          by_cases hsv : isSolved (setCell s.m e.x e.y 0) = true
          · rw [if_pos hsv] at h; cases h
          · rw [if_neg hsv] at h; cases h

/-- C5: in the trial-and-error loop, when the candidate scan accepts nothing at
the cursor's cell, the completeness check is necessarily false at that moment
(the cursor's cell was just zeroed), so the claimed "if complete, stop with
success" branch is vacuously satisfied, and the step actually performed is
exactly the claimed dead-end handling: the cell is reset to 0, its tried-value
set is cleared, and the cursor moves back by exactly one, while every other
frontier entry (in particular the previous one, with its tried set still
populated) is left untouched. -/
theorem C5_backtrack_step (s : TState) (e : Entry) (k : Nat)
    (hidx : s.idx = (k : Int)) (hk : s.ps.get? k = some e)
    (hx : e.x < s.m.length) (hy : e.y < (getRow s.m e.x).length)
    (hscan : findTrialValue (setCell s.m e.x e.y 0) e = none) :
    isSolved (setCell s.m e.x e.y 0) = false ∧
      trialStep s = StepRes.next ⟨setCell (setCell s.m e.x e.y 0) e.x e.y 0,
        s.ps.set k { e with valuesTested := [] }, s.idx - 1⟩ ∧
      ∀ j, j ≠ k → (s.ps.set k { e with valuesTested := [] }).get? j = s.ps.get? j := by
  have hklen : k < s.ps.length := get?_some_lt hk
  have hcell0 : getCell? (setCell s.m e.x e.y 0) e.x e.y = some 0 :=
    getCell?_setCell_eq 0 (getCell?_of_lt hy)
  have hsolved : isSolved (setCell s.m e.x e.y 0) = false := isSolved_false_of_zero hcell0
  have htonat : s.idx.toNat = k := by
    rw [hidx]
    omega
  refine ⟨hsolved, ?_, fun j hj => get?_set_other _ k j _ (fun hc => hj hc.symm)⟩
  unfold trialStep
  rw [if_neg (by rw [hidx]; omega), if_neg (by rw [hidx]; omega), htonat, hk]
  simp only [hscan, hsolved]
  rfl

/-- Witness for C5 at a concrete dead-end state built from `crashGrid`. -/
theorem C5_witness :
    isSolved (setCell crashGrid 0 8 0) = false ∧
      trialStep ⟨crashGrid, [⟨0, 8, []⟩], 0⟩ =
        StepRes.next ⟨setCell (setCell crashGrid 0 8 0) 0 8 0,
          ([⟨0, 8, []⟩] : List Entry).set 0 ⟨0, 8, []⟩, -1⟩ ∧
      (([⟨0, 8, []⟩] : List Entry).set 0 ⟨0, 8, []⟩).get? 1 =
        ([⟨0, 8, []⟩] : List Entry).get? 1 := by
  have h := C5_backtrack_step ⟨crashGrid, [⟨0, 8, []⟩], 0⟩ ⟨0, 8, []⟩ 0
    (by decide) (by decide) (by decide) (by decide) (by decide)
  exact ⟨h.1, h.2.1, h.2.2 1 (by decide)⟩

/-! ### Frame lemmas: no mutation ever touches a cell holding a non-zero given. -/

theorem setCell_frame {m : Values} {x y x0 y0 : Nat} {v v0 : Int}
    (hcell : getCell? m x0 y0 = some v0) (hne : ¬(x = x0 ∧ y = y0)) :
    getCell? (setCell m x y v) x0 y0 = some v0 := by
  rw [getCell?_setCell_ne m x y v x0 y0 (fun hc => hne ⟨hc.1.symm, hc.2.symm⟩)]
  exact hcell

theorem setCell_frame_of_zero {m : Values} {x y x0 y0 : Nat} {v v0 : Int}
    (hcell : getCell? m x0 y0 = some v0) (hv0 : v0 ≠ 0)
    (h0 : getCell? m x y = some 0) :
    getCell? (setCell m x y v) x0 y0 = some v0 := by
  apply setCell_frame hcell
  rintro ⟨rfl, rfl⟩
  rw [hcell] at h0
  cases h0
  exact hv0 rfl

theorem sweepRow_frame {x x0 y0 : Nat} {v0 : Int} (hv0 : v0 ≠ 0) :
    ∀ (ys : List Nat) (m : Values) (changed : Bool), getCell? m x0 y0 = some v0 →
      getCell? (sweepRow m x ys changed).1 x0 y0 = some v0 := by
  intro ys
  induction ys with
  | nil => intro m c h; exact h
  | cons y rest ih =>
    intro m c h
    simp only [sweepRow]
    by_cases h0 : getCell? m x y = some 0
    · rw [if_pos h0]
      cases hfc : findCandidate m x y with
      | none => exact ih m c h
      | some v => exact ih _ true (setCell_frame_of_zero h hv0 h0)
    · rw [if_neg h0]
      exact ih m c h

theorem sweepRows_frame {x0 y0 : Nat} {v0 : Int} (hv0 : v0 ≠ 0) :
    ∀ (xs : List Nat) (m : Values) (changed : Bool), getCell? m x0 y0 = some v0 →
      getCell? (sweepRows m xs changed).1 x0 y0 = some v0 := by
  intro xs
  induction xs with
  | nil => intro m c h; exact h
  | cons x rest ih =>
    intro m c h
    simp only [sweepRows]
    exact ih _ _ (sweepRow_frame hv0 _ m c h)

theorem sweepLoopO_frame {x0 y0 : Nat} {v0 : Int} (hv0 : v0 ≠ 0) :
    ∀ (fuel : Nat) (m m' : Values), sweepLoopO fuel m = some m' →
      getCell? m x0 y0 = some v0 → getCell? m' x0 y0 = some v0 := by
  intro fuel
  induction fuel with
  | zero => intro m m' h; cases h
  | succ f ih =>
    intro m m' h hc
    rw [sweepLoopO_succ] at h
    by_cases hs : isSolved m = true
    · rw [if_pos hs] at h
      cases h
      exact hc
    · rw [if_neg hs] at h
      simp only at h
      by_cases hch : (sweepPass m).2 = true
      · rw [if_pos hch] at h
        exact ih _ _ h (sweepRows_frame hv0 _ m false hc)
      · rw [if_neg hch] at h
        cases h
        exact sweepRows_frame hv0 _ m false hc

theorem sweepFix_frame {x0 y0 : Nat} {v0 : Int} (hv0 : v0 ≠ 0) {m : Values}
    (hc : getCell? m x0 y0 = some v0) : getCell? (sweepFix m) x0 y0 = some v0 := by
  unfold sweepFix
  cases hs : sweepLoopO (countZeros m + 1) m with
  | none => exact hc
  | some m' => exact sweepLoopO_frame hv0 _ m m' hs hc

theorem mem_getUnfilledPositions {m : Values} {e : Entry}
    (h : e ∈ getUnfilledPositions m) :
    getCell? m e.x e.y = some 0 ∧ e.valuesTested = [] := by
  unfold getUnfilledPositions at h
  simp only [List.mem_flatMap, List.mem_filterMap, List.mem_range] at h
  obtain ⟨x, hx, y, hy, hif⟩ := h
  by_cases h0 : getCell? m x y = some 0
  · rw [if_pos h0] at hif
    cases hif
    exact ⟨h0, rfl⟩
  · rw [if_neg h0] at hif
    cases hif

theorem trialStep_frame {x0 y0 : Nat} {v0 : Int} (hv0 : v0 ≠ 0) {s s' : TState}
    (h : trialStep s = StepRes.next s')
    (hps : ∀ e ∈ s.ps, ¬(e.x = x0 ∧ e.y = y0))
    (hcell : getCell? s.m x0 y0 = some v0) :
    (∀ e ∈ s'.ps, ¬(e.x = x0 ∧ e.y = y0)) ∧ getCell? s'.m x0 y0 = some v0 := by
  unfold trialStep at h
  by_cases h1 : s.idx > (s.ps.length : Int) - 1
  · rw [if_pos h1] at h; cases h
  · rw [if_neg h1] at h
    by_cases h2 : s.idx < 0
    · rw [if_pos h2] at h; cases h
    · rw [if_neg h2] at h
      cases hget : s.ps.get? s.idx.toNat with
      | none => rw [hget] at h; cases h
      | some e =>
        rw [hget] at h
        simp only at h
        have hemem : e ∈ s.ps := List.get?_mem hget
        have hene : ¬(e.x = x0 ∧ e.y = y0) := hps e hemem
        have hm1 : getCell? (setCell s.m e.x e.y 0) x0 y0 = some v0 :=
          setCell_frame hcell hene
        cases hfv : findTrialValue (setCell s.m e.x e.y 0) e with
        | some v =>
          rw [hfv] at h
          cases h
          refine ⟨?_, setCell_frame hm1 hene⟩
          intro e' he'
          rcases List.mem_or_eq_of_mem_set he' with hmem | rfl
          · exact hps e' hmem
          · exact hene
        | none =>
          rw [hfv] at h
          by_cases hsv : isSolved (setCell s.m e.x e.y 0) = true
          · rw [if_pos hsv] at h
            cases h
            exact ⟨hps, hm1⟩
          · rw [if_neg hsv] at h
            cases h
            refine ⟨?_, setCell_frame hm1 hene⟩
            intro e' he'
            rcases List.mem_or_eq_of_mem_set he' with hmem | rfl
            · exact hps e' hmem
            · exact hene

theorem trialLoop_frame {x0 y0 : Nat} {v0 : Int} (hv0 : v0 ≠ 0) :
    ∀ (fuel : Nat) (s : TState) (r : SolveResult), trialLoop fuel s = some r →
      (∀ e ∈ s.ps, ¬(e.x = x0 ∧ e.y = y0)) → getCell? s.m x0 y0 = some v0 →
      getCell? (gridOf r) x0 y0 = some v0 := by
  intro fuel
  induction fuel with
  | zero => intro s r h; cases h
  | succ f ih =>
    intro s r h hps hcell
    rw [trialLoop_succ] at h
    cases hst : trialStep s with
    | finished m =>
      rw [hst] at h
      cases h
      rw [trialStep_finished_eq hst]
      exact hcell
    | fault m =>
      rw [hst] at h
      cases h
      rw [trialStep_fault_eq hst]
      exact hcell
    | next s' =>
      rw [hst] at h
      obtain ⟨hps', hcell'⟩ := trialStep_frame hv0 hst hps hcell
      exact ih s' r h hps' hcell'

/-- C10: solve never modifies a given — a cell that is non-zero when `solve` is
called holds the same value after the propagation sweep and in the final grid
of any solve outcome: the sweep writes only to cells currently equal to 0, and
the trial-and-error search mutates only cells of its frontier list, which was
built from the unfilled (zero) cells of the post-sweep grid. -/
theorem C10_solve_preserves_givens {m : Values} (hval : validate m = none)
    {x y : Nat} {v : Int} (hcell : getCell? m x y = some v) (hv : v ≠ 0)
    (fuel : Nat) (r : SolveResult) (hrun : solve fuel m = some r) :
    getCell? (sweepFix m) x y = some v ∧ getCell? (gridOf r) x y = some v := by
  have hfix : getCell? (sweepFix m) x y = some v := sweepFix_frame hv hcell
  refine ⟨hfix, ?_⟩
  unfold solve at hrun
  by_cases hs : isSolved (sweepFix m) = true
  · rw [if_pos hs] at hrun
    cases hrun
    exact hfix
  · rw [if_neg hs] at hrun
    refine trialLoop_frame hv fuel _ r hrun ?_ hfix
    intro e he
    obtain ⟨h0, -⟩ := mem_getUnfilledPositions he
    rintro ⟨rfl, rfl⟩
    rw [hfix] at h0
    cases h0
    exact hv rfl

/-- Witness for C10: the given 4 at cell `(1,0)` of `nearFull` survives the
sweep and appears unchanged in the solved grid. -/
theorem C10_witness :
    getCell? (sweepFix nearFull) 1 0 = some 4 ∧ getCell? fullGrid 1 0 = some 4 := by
  have h := C10_solve_preserves_givens
    (show validate nearFull = none by decide)
    (show getCell? nearFull 1 0 = some 4 by decide) (by decide) 1
    (SolveResult.ok fullGrid) (by decide)
  exact ⟨h.1, h.2⟩

/-! ### C4: the propagation acceptance rule refines the spec wording. -/

theorem row_absent_iff {m : Values} {x : Nat} {v : Int} (hrl : (getRow m x).length = 9) :
    isValuePresentInRow m x v = false ↔ (∀ j, j < 9 → getCell? m x j ≠ some v) := by
  constructor
  · intro h j hj hcell
    have h0 := present_row_false h
    unfold countValueInRow at h0
    rw [List.countP_eq_zero] at h0
    have hvmem : v ∈ getRow m x := List.get?_mem hcell
    exact h0 v hvmem (by simp)
  · intro h
    unfold isValuePresentInRow
    simp only [decide_eq_false_iff_not]
    intro hpos
    unfold countValueInRow at hpos
    obtain ⟨c, hcmem, hcv⟩ := List.countP_pos.1 hpos
    have hceq : c = v := by simpa using hcv
    subst hceq
    obtain ⟨j, hj⟩ := List.mem_iff_get?.1 hcmem
    have hj9 : j < 9 := by
      have := get?_some_lt hj
      omega
    exact h j hj9 hj

theorem col_absent_iff {m : Values} {y : Nat} {v : Int} (hlen : m.length = 9) :
    isValuePresentInColumn m y v = false ↔ (∀ i, i < 9 → getCell? m i y ≠ some v) := by
  constructor
  · intro h i hi hcell
    have h0 := present_col_false h
    unfold countValueInColumn at h0
    rw [List.countP_eq_zero] at h0
    have hrowmem : getRow m i ∈ m := List.get?_mem (get?_eq_some_getRow m i (by omega))
    have := h0 _ hrowmem
    unfold getCell? at hcell
    rw [hcell] at this
    simp at this
  · intro h
    unfold isValuePresentInColumn
    simp only [decide_eq_false_iff_not]
    intro hpos
    unfold countValueInColumn at hpos
    obtain ⟨row, hrmem, hrv⟩ := List.countP_pos.1 hpos
    have hrv' : row.get? y = some v := by simpa using hrv
    obtain ⟨i, hi⟩ := List.mem_iff_get?.1 hrmem
    have hi9 : i < 9 := by
      have := get?_some_lt hi
      omega
    apply h i hi9
    unfold getCell?
    rw [getRow_eq_of_get? hi]
    exact hrv'

theorem group_absent_iff {m : Values} {x y : Nat} {v : Int} :
    isValuePresentInGroup m x y v = false ↔
      (∀ p ∈ groupCells x y, getCell? m p.1 p.2 ≠ some v) := by
  constructor
  · intro h p hp hcell
    have h0 := present_group_false h
    unfold countValueInGroup at h0
    rw [List.countP_eq_zero] at h0
    have := h0 p hp
    rw [hcell] at this
    simp at this
  · intro h
    unfold isValuePresentInGroup
    simp only [decide_eq_false_iff_not]
    intro hpos
    unfold countValueInGroup at hpos
    obtain ⟨p, hpmem, hpv⟩ := List.countP_pos.1 hpos
    exact h p hpmem (by simpa using hpv)

theorem qualifies_pointwise {m : Values} {v : Int} {p : Nat × Nat}
    (h9 : shape9 m) (hp1 : p.1 < 9) :
    (getCell? m p.1 p.2 == some 0 &&
        !(isValuePresentInRow m p.1 v || isValuePresentInColumn m p.2 v)) =
      decide (specQualifies m v p) := by
  have hrl : (getRow m p.1).length = 9 := rowLen9 h9 (by have := h9.1; omega)
  rw [Bool.eq_iff_iff, decide_eq_true_eq]
  constructor
  · intro hb
    simp only [Bool.and_eq_true, beq_iff_eq, Bool.not_eq_true', Bool.or_eq_false_iff] at hb
    obtain ⟨h0, hrow, hcol⟩ := hb
    exact ⟨h0, (row_absent_iff hrl).1 hrow, (col_absent_iff h9.1).1 hcol⟩
  · rintro ⟨h0, hrow, hcol⟩
    simp only [Bool.and_eq_true, beq_iff_eq, Bool.not_eq_true', Bool.or_eq_false_iff]
    exact ⟨h0, (row_absent_iff hrl).2 hrow, (col_absent_iff h9.1).2 hcol⟩

theorem canOnlyOne_iff {m : Values} {x y : Nat} {v : Int}
    (h9 : shape9 m) (hx : x < 9) (hy : y < 9) :
    canValueBeAddedInOnlyOnePositionInGroup m x y v = true ↔
      (groupCells x y).countP (fun p => decide (specQualifies m v p)) = 1 := by
  unfold canValueBeAddedInOnlyOnePositionInGroup
  have hcount : (groupCells x y).countP (fun p =>
      getCell? m p.1 p.2 == some 0 &&
        !(isValuePresentInRow m p.1 v || isValuePresentInColumn m p.2 v)) =
      (groupCells x y).countP (fun p => decide (specQualifies m v p)) := by
    apply countP_congr_mem
    intro p hp
    exact qualifies_pointwise h9 (groupCells_bounds hx hy hp).1
  rw [hcount]
  exact beq_iff_eq

theorem accept_iff_spec {m : Values} {x y : Nat} {v : Int}
    (h9 : shape9 m) (hx : x < 9) (hy : y < 9) :
    isValueValidInPosition m x y v true = true ↔ specAccepts m x y v := by
  have hrl : (getRow m x).length = 9 := rowLen9 h9 (by have := h9.1; omega)
  unfold isValueValidInPosition specAccepts
  simp only [if_true, Bool.and_eq_true, Bool.not_eq_true']
  constructor
  · rintro ⟨⟨⟨h1, h2⟩, h3⟩, h4⟩
    exact ⟨(row_absent_iff hrl).1 h1, (col_absent_iff h9.1).1 h2,
      group_absent_iff.1 h3, (canOnlyOne_iff h9 hx hy).1 h4⟩
  · rintro ⟨h1, h2, h3, h4⟩
    exact ⟨⟨⟨(row_absent_iff hrl).2 h1, (col_absent_iff h9.1).2 h2⟩,
      group_absent_iff.2 h3⟩, (canOnlyOne_iff h9 hx hy).2 h4⟩

/-- C4: during the propagation sweep, the value committed into an unfilled
cell is characterized exactly by the spec's acceptance rule: `findCandidate`
returns `v` iff `v` is accepted in the spec's sense (absent from the row,
absent from the column, absent from the block, and exactly one qualifying
position exists in the block, where a position qualifies iff it is unfilled
and the value is absent from its row and column) and no smaller candidate in
ascending order 1–9 is accepted; and the sweep commits exactly that first
accepted candidate to the cell and stops the scan. -/
theorem C4_sweep_acceptance (m : Values) (x y : Nat) (v : Int)
    (h9 : shape9 m) (hx : x < 9) (hy : y < 9) (hv1 : 1 ≤ v) (hv9 : v ≤ 9) :
    (findCandidate m x y = some v ↔
      specAccepts m x y v ∧ ∀ w : Int, 1 ≤ w → w < v → ¬ specAccepts m x y w) ∧
    (getCell? m x y = some 0 →
      sweepRow m x [y] false =
        ((match findCandidate m x y with
          | some w => setCell m x y w
          | none => m), (findCandidate m x y).isSome)) := by
  constructor
  · constructor
    · intro hfc
      obtain ⟨k, hk1, hk9, rfl, hvalid, hmin⟩ := findCandidate_eq_some_iff.1 hfc
      refine ⟨(accept_iff_spec h9 hx hy).1 hvalid, fun w hw1 hwv hspec => ?_⟩
      have hw9 : w ≤ 9 := by omega
      have hwnat : ((w.toNat : Nat) : Int) = w := Int.toNat_of_nonneg (by omega)
      have hvalidw : isValueValidInPosition m x y ((w.toNat : Nat) : Int) true = true :=
        (accept_iff_spec h9 hx hy).2 (hwnat ▸ hspec)
      have := hmin w.toNat (by omega) (by omega)
      rw [this] at hvalidw
      cases hvalidw
    · rintro ⟨hspec, hmin⟩
      have hvnat : ((v.toNat : Nat) : Int) = v := Int.toNat_of_nonneg (by omega)
      refine findCandidate_eq_some_iff.2 ⟨v.toNat, by omega, by omega, by omega, ?_, ?_⟩
      · exact (accept_iff_spec h9 hx hy).2 (hvnat ▸ hspec)
      · intro j hj1 hjv
        cases hvj : isValueValidInPosition m x y (j : Int) true with
        | false => rfl
        | true =>
          exfalso
          exact hmin (j : Int) (by omega) (by omega) ((accept_iff_spec h9 hx hy).1 hvj)
  · intro h0
    simp only [sweepRow]
    rw [if_pos h0]
    cases hfc : findCandidate m x y with
    | some w => rfl
    | none => rfl

/-- Witness for C4: on `nearFull`, the cell `(0,0)` accepts candidate 1, and
the spec-side acceptance predicate agrees. -/
theorem C4_witness : findCandidate nearFull 0 0 = some 1 ∧ specAccepts nearFull 0 0 1 := by
  have h := C4_sweep_acceptance nearFull 0 0 1 (by decide) (by norm_num) (by norm_num)
    (by norm_num) (by norm_num)
  have hfc : findCandidate nearFull 0 0 = some 1 := by decide
  exact ⟨hfc, (h.1.1 hfc).1⟩

/-! ### C7: termination.  First, the propagation loop. -/

theorem sweepRow_zeros (x : Nat) :
    ∀ (ys : List Nat) (m : Values) (c : Bool),
      countZeros (sweepRow m x ys c).1 ≤ countZeros m ∧
        ((sweepRow m x ys c).2 = true → c = true ∨
          countZeros (sweepRow m x ys c).1 < countZeros m) := by
  intro ys
  induction ys with
  | nil => intro m c; exact ⟨le_refl _, fun h => Or.inl h⟩
  | cons y rest ih =>
    intro m c
    by_cases h0 : getCell? m x y = some 0
    · cases hfc : findCandidate m x y with
      | none =>
        have hstep : sweepRow m x (y :: rest) c = sweepRow m x rest c := by
          simp only [sweepRow]
          rw [if_pos h0, hfc]
        rw [hstep]
        exact ih m c
      | some v =>
        obtain ⟨k, hk1, hk9, rfl, -, -⟩ := findCandidate_eq_some_iff.1 hfc
        have hstep : sweepRow m x (y :: rest) c =
            sweepRow (setCell m x y ((k : Nat) : Int)) x rest true := by
          simp only [sweepRow]
          rw [if_pos h0, hfc]
        rw [hstep]
        have hdec := @countZeros_setCell m x y ((k : Nat) : Int) h0 (by omega)
        obtain ⟨hle, -⟩ := ih (setCell m x y ((k : Nat) : Int)) true
        exact ⟨by omega, fun _ => Or.inr (by omega)⟩
    · have hstep : sweepRow m x (y :: rest) c = sweepRow m x rest c := by
        simp only [sweepRow]
        rw [if_neg h0]
      rw [hstep]
      exact ih m c

theorem sweepRows_zeros :
    ∀ (xs : List Nat) (m : Values) (c : Bool),
      countZeros (sweepRows m xs c).1 ≤ countZeros m ∧
        ((sweepRows m xs c).2 = true → c = true ∨
          countZeros (sweepRows m xs c).1 < countZeros m) := by
  intro xs
  induction xs with
  | nil => intro m c; exact ⟨le_refl _, fun h => Or.inl h⟩
  | cons x rest ih =>
    intro m c
    simp only [sweepRows]
    obtain ⟨hle1, hch1⟩ := sweepRow_zeros x (List.range (getRow m x).length) m c
    obtain ⟨hle2, hch2⟩ := ih (sweepRow m x (List.range (getRow m x).length) c).1
      (sweepRow m x (List.range (getRow m x).length) c).2
    refine ⟨by omega, fun hc => ?_⟩
    rcases hch2 hc with hc1 | hlt
    · rcases hch1 hc1 with hc0 | hlt0
      · exact Or.inl hc0
      · exact Or.inr (by omega)
    · exact Or.inr (by omega)

theorem sweepPass_decrease {m : Values} (h : (sweepPass m).2 = true) :
    countZeros (sweepPass m).1 < countZeros m := by
  obtain ⟨-, hch⟩ := sweepRows_zeros (List.range m.length) m false
  rcases hch h with hfalse | hlt
  · cases hfalse
  · exact hlt

/-- The propagation loop always exits (with its natural result) given fuel
exceeding the number of zero cells: its `while` loop terminates. -/
theorem sweepLoopO_isSome_of_lt :
    ∀ (fuel : Nat) (m : Values), countZeros m < fuel →
      (sweepLoopO fuel m).isSome = true := by
  intro fuel
  induction fuel with
  | zero => intro m h; omega
  | succ f ih =>
    intro m h
    rw [sweepLoopO_succ]
    by_cases hs : isSolved m = true
    · rw [if_pos hs]
      rfl
    · rw [if_neg hs]
      simp only
      by_cases hch : (sweepPass m).2 = true
      · rw [if_pos hch]
        have := sweepPass_decrease hch
        exact ih _ (by omega)
      · rw [if_neg hch]
        rfl

/-! ### C7: termination of the trial-and-error loop. -/

theorem isValueTested_eq_false_not_mem {l : List Int} {v : Int}
    (h : isValueTested l v = false) : v ∉ l := by
  intro hmem
  have htrue : isValueTested l v = true := by
    unfold isValueTested
    rw [List.any_eq_true]
    exact ⟨v, hmem, by simp⟩
  rw [h] at htrue
  cases htrue

theorem nodup_le_nine {l : List Int} (hnd : l.Nodup) (hb : ∀ v ∈ l, 1 ≤ v ∧ v ≤ 9) :
    l.length ≤ 9 := by
  classical
  have hcard : l.toFinset.card = l.length := List.toFinset_card_of_nodup hnd
  have hsub : l.toFinset ⊆ Finset.Icc (1 : Int) 9 := by
    intro v hv
    rw [List.mem_toFinset] at hv
    rw [Finset.mem_Icc]
    exact hb v hv
  have hle := Finset.card_le_card hsub
  have h9 : (Finset.Icc (1 : Int) 9).card = 9 := by
    rw [Int.card_Icc]
    rfl
  omega

theorem sum_range_succ_map (f : Nat → Nat) (k : Nat) :
    ((List.range (k + 1)).map f).sum = ((List.range k).map f).sum + f k := by
  rw [List.range_succ, List.map_append, List.sum_append]
  simp

theorem sum_range_map_congr {f g : Nat → Nat} (k : Nat) (h : ∀ j, j < k → f j = g j) :
    ((List.range k).map f).sum = ((List.range k).map g).sum := by
  induction k with
  | zero => rfl
  | succ n ih =>
    rw [sum_range_succ_map, sum_range_succ_map, ih (fun j hj => h j (by omega)),
      h n (by omega)]

theorem triedLen_at {ps : List Entry} {k : Nat} {e : Entry} (h : ps.get? k = some e) :
    triedLen ps k = e.valuesTested.length := by
  unfold triedLen
  rw [h]
  rfl

theorem muTerm_set_ne {ps : List Entry} {k j : Nat} (e' : Entry) (h : j ≠ k) :
    muTerm (ps.set k e') j = muTerm ps j := by
  unfold muTerm triedLen
  rw [List.length_set, get?_set_other ps k j e' (fun hc => h hc.symm)]

theorem muTerm_set_self {ps : List Entry} {k : Nat} (e' : Entry) (hk : k < ps.length) :
    muTerm (ps.set k e') k =
      (10 - e'.valuesTested.length) * 11 ^ (ps.length - 1 - k) := by
  unfold muTerm triedLen
  rw [List.length_set, get?_set_self ps k e' hk]
  rfl

theorem entryBound_setCell {m : Values} {x y : Nat} {v : Int} {e : Entry}
    (h : entryBound m e) : entryBound (setCell m x y v) e := by
  obtain ⟨h1, h2, h3, h4⟩ := h
  exact ⟨h1, h2, by rw [length_setCell]; exact h3,
    by rw [getRow_setCell_length]; exact h4⟩

theorem mu_eval {s : TState} {k : Nat} (hidx : s.idx = (k : Int)) :
    mu s = ((List.range (min k (s.ps.length - 1) + 1)).map (muTerm s.ps)).sum := by
  unfold mu
  rw [hidx]
  have h1 : ((k : Int)).toNat = k := by omega
  rw [h1]

/-- One `next` step from a wellformed state preserves wellformedness, and
either retreats the cursor below zero or strictly decreases the measure. -/
theorem trialStep_next_spec {s s' : TState} (h : trialStep s = StepRes.next s')
    (hWF : WFState s) : WFState s' ∧ (s'.idx < 0 ∨ mu s' < mu s) := by
  unfold trialStep at h
  by_cases h1 : s.idx > (s.ps.length : Int) - 1
  · rw [if_pos h1] at h; cases h
  · rw [if_neg h1] at h
    by_cases h2 : s.idx < 0
    · rw [if_pos h2] at h; cases h
    · rw [if_neg h2] at h
      cases hget : s.ps.get? s.idx.toNat with
      | none => rw [hget] at h; cases h
      | some e =>
        rw [hget] at h
        simp only at h
        have hkn : s.idx.toNat < s.ps.length := get?_some_lt hget
        have hidxk : s.idx = ((s.idx.toNat : Nat) : Int) := by omega
        obtain ⟨hnd, hbd, hxlen, hylen⟩ := hWF e (List.get?_mem hget)
        have hcell0 : getCell? (setCell s.m e.x e.y 0) e.x e.y = some 0 :=
          getCell?_setCell_eq 0 (getCell?_of_lt hylen)
        have ht9 : e.valuesTested.length ≤ 9 := nodup_le_nine hnd hbd
        have hAiter := mu_eval hidxk
        have hmink : min s.idx.toNat (s.ps.length - 1) = s.idx.toNat := by omega
        rw [hmink] at hAiter
        rw [sum_range_succ_map] at hAiter
        cases hfv : findTrialValue (setCell s.m e.x e.y 0) e with
        | some v =>
          rw [hfv] at h
          cases h
          obtain ⟨kk, hkk1, hkk9, rfl, huntested, hvalid⟩ := findTrialValue_eq_some hfv
          have hnd' : (e.valuesTested ++ [((kk : Nat) : Int)]).Nodup := by
            rw [List.nodup_append]
            refine ⟨hnd, List.nodup_singleton _, ?_⟩
            intro a ha hb
            rw [List.mem_singleton] at hb
            subst hb
            exact (isValueTested_eq_false_not_mem huntested) ha
          have hbd' : ∀ w ∈ e.valuesTested ++ [((kk : Nat) : Int)], 1 ≤ w ∧ w ≤ 9 := by
            intro w hw
            rcases List.mem_append.1 hw with hw1 | hw2
            · exact hbd w hw1
            · rw [List.mem_singleton] at hw2
              subst hw2
              constructor <;> omega
          have ht8 : e.valuesTested.length ≤ 8 := by
            have := nodup_le_nine hnd' hbd'
            rw [List.length_append, List.length_singleton] at this
            omega
          constructor
          · intro e' he'
            rcases List.mem_or_eq_of_mem_set he' with hmem | rfl
            · exact entryBound_setCell (entryBound_setCell (hWF e' hmem))
            · exact entryBound_setCell (entryBound_setCell ⟨hnd', hbd', hxlen, hylen⟩)
          · right
            have hlenset : (s.ps.set s.idx.toNat
                { e with valuesTested := e.valuesTested ++ [((kk : Nat) : Int)] }).length =
                s.ps.length := List.length_set s.ps _ _
            have hidx' : ((s.idx + 1 : Int)) = (((s.idx.toNat + 1 : Nat) : Nat) : Int) := by
              omega
            have hmu' := mu_eval (s := ⟨setCell (setCell s.m e.x e.y 0) e.x e.y ((kk : Nat) : Int),
              s.ps.set s.idx.toNat
                { e with valuesTested := e.valuesTested ++ [((kk : Nat) : Int)] },
              s.idx + 1⟩) hidx'
            simp only at hmu'
            rw [hlenset] at hmu'
            have hcongr : ∀ j, j < s.idx.toNat →
                muTerm (s.ps.set s.idx.toNat
                  { e with valuesTested := e.valuesTested ++ [((kk : Nat) : Int)] }) j =
                muTerm s.ps j :=
              fun j hj => muTerm_set_ne _ (by omega)
            have hself := muTerm_set_self
              { e with valuesTested := e.valuesTested ++ [((kk : Nat) : Int)] } hkn
            rw [List.length_append, List.length_singleton] at hself
            have htlen := triedLen_at hget
            have hms2 : mu s = (List.map (muTerm s.ps) (List.range s.idx.toNat)).sum +
                ((10 - (e.valuesTested.length + 1)) * 11 ^ (s.ps.length - 1 - s.idx.toNat) +
                  11 ^ (s.ps.length - 1 - s.idx.toNat)) := by
              rw [hAiter]
              congr 1
              unfold muTerm
              rw [htlen]
              have hco : 10 - e.valuesTested.length =
                  (10 - (e.valuesTested.length + 1)) + 1 := by omega
              rw [hco, Nat.add_mul, one_mul]
            by_cases hklast : s.idx.toNat + 1 ≤ s.ps.length - 1
            · have hminsucc : min (s.idx.toNat + 1) (s.ps.length - 1) = s.idx.toNat + 1 := by
                omega
              rw [hminsucc] at hmu'
              rw [sum_range_succ_map, sum_range_succ_map] at hmu'
              rw [sum_range_map_congr _ hcongr] at hmu'
              rw [hself] at hmu'
              have hexp : s.ps.length - 1 - (s.idx.toNat + 1) =
                  s.ps.length - 2 - s.idx.toNat := by
                omega
              have hexp2 : s.ps.length - 1 - s.idx.toNat =
                  (s.ps.length - 2 - s.idx.toNat) + 1 := by
                omega
              have hWQ : (11 : Nat) ^ (s.ps.length - 1 - s.idx.toNat) =
                  11 ^ (s.ps.length - 2 - s.idx.toNat) * 11 := by
                rw [hexp2, pow_succ]
              have hnew : muTerm (s.ps.set s.idx.toNat
                  { e with valuesTested := e.valuesTested ++ [((kk : Nat) : Int)] })
                  (s.idx.toNat + 1) ≤ 10 * 11 ^ (s.ps.length - 2 - s.idx.toNat) := by
                unfold muTerm
                rw [List.length_set, hexp]
                exact Nat.mul_le_mul_right _ (by omega)
              have hQpos : 0 < (11 : Nat) ^ (s.ps.length - 2 - s.idx.toNat) :=
                pow_pos (by norm_num) _
              omega
            · have hminsucc : min (s.idx.toNat + 1) (s.ps.length - 1) = s.idx.toNat := by
                omega
              rw [hminsucc] at hmu'
              rw [sum_range_succ_map] at hmu'
              rw [sum_range_map_congr _ hcongr] at hmu'
              rw [hself] at hmu'
              have hWpos : 0 < (11 : Nat) ^ (s.ps.length - 1 - s.idx.toNat) :=
                pow_pos (by norm_num) _
              omega
        | none =>
          rw [hfv] at h
          have hsolved : isSolved (setCell s.m e.x e.y 0) = false :=
            isSolved_false_of_zero hcell0
          rw [if_neg (by rw [hsolved]; exact Bool.false_ne_true)] at h
          cases h
          constructor
          · intro e' he'
            rcases List.mem_or_eq_of_mem_set he' with hmem | rfl
            · exact entryBound_setCell (entryBound_setCell (hWF e' hmem))
            · exact entryBound_setCell (entryBound_setCell
                ⟨List.nodup_nil, fun v hv => absurd hv (List.not_mem_nil v), hxlen, hylen⟩)
          · by_cases hk0 : s.idx.toNat = 0
            · left
              show s.idx - 1 < 0
              omega
            · right
              have hlenset : (s.ps.set s.idx.toNat { e with valuesTested := [] }).length =
                  s.ps.length := List.length_set s.ps _ _
              have hidx' : ((s.idx - 1 : Int)) = (((s.idx.toNat - 1 : Nat) : Nat) : Int) := by
                omega
              have hmu' := mu_eval (s := ⟨setCell (setCell s.m e.x e.y 0) e.x e.y 0,
                s.ps.set s.idx.toNat { e with valuesTested := [] }, s.idx - 1⟩) hidx'
              simp only at hmu'
              rw [hlenset] at hmu'
              have hminpred : min (s.idx.toNat - 1) (s.ps.length - 1) = s.idx.toNat - 1 := by
                omega
              rw [hminpred] at hmu'
              have hpred1 : s.idx.toNat - 1 + 1 = s.idx.toNat := by omega
              rw [hpred1] at hmu'
              have hcongr : ∀ j, j < s.idx.toNat →
                  muTerm (s.ps.set s.idx.toNat { e with valuesTested := [] }) j =
                  muTerm s.ps j :=
                fun j hj => muTerm_set_ne _ (by omega)
              rw [sum_range_map_congr _ hcongr] at hmu'
              have htlen := triedLen_at hget
              have htermpos : 0 < muTerm s.ps s.idx.toNat := by
                unfold muTerm
                rw [htlen]
                exact Nat.mul_pos (by omega) (pow_pos (by norm_num) _)
              omega

theorem trialLoop_terminates :
    ∀ (N : Nat) (s : TState), mu s < N → WFState s →
      ∃ fuel, (trialLoop fuel s).isSome = true := by
  intro N
  induction N with
  | zero => intro s h; omega
  | succ n ih =>
    intro s hmu hWF
    cases hst : trialStep s with
    | finished m => exact ⟨1, by rw [trialLoop_succ, hst]; rfl⟩
    | fault m => exact ⟨1, by rw [trialLoop_succ, hst]; rfl⟩
    | next s' =>
      obtain ⟨hWF', hcase⟩ := trialStep_next_spec hst hWF
      rcases hcase with hneg | hdec
      · refine ⟨2, ?_⟩
        rw [trialLoop_succ, hst]
        show (trialLoop 1 s').isSome = true
        rw [trialLoop_succ, trialStep_fault_of_neg hneg]
        rfl
      · obtain ⟨fuel, hf⟩ := ih s' (by omega) hWF'
        exact ⟨fuel + 1, by rw [trialLoop_succ, hst]; exact hf⟩

theorem WFState_initial (m : Values) : WFState ⟨m, getUnfilledPositions m, 0⟩ := by
  intro e he
  obtain ⟨h0, ht⟩ := mem_getUnfilledPositions he
  obtain ⟨hx, hy⟩ := getCell?_isSome_bounds h0
  refine ⟨?_, ?_, hx, hy⟩
  · rw [ht]
    exact List.nodup_nil
  · rw [ht]
    intro v hv
    exact absurd hv (List.not_mem_nil v)

/-- C7: for every successfully constructed grid with exactly two non-zero
cells, `solve` terminates: the propagation loop exits within its fuel bound
(each changing pass fills at least one cell), and the trial-and-error loop
reaches a final outcome — loop exit or the exhaustion fault — in finitely many
steps (the tried-set measure decreases at every iteration). -/
theorem C7_solve_terminates {m : Values} (hval : validate m = none)
    (hclues : countNonZeros m = 2) :
    (sweepLoopO (countZeros m + 1) m).isSome = true ∧
      ∃ fuel, (solve fuel m).isSome = true := by
  refine ⟨sweepLoopO_isSome_of_lt _ m (by omega), ?_⟩
  by_cases hs : isSolved (sweepFix m) = true
  · exact ⟨0, by unfold solve; rw [if_pos hs]; rfl⟩
  · obtain ⟨fuel, hf⟩ := trialLoop_terminates
      (mu ⟨sweepFix m, getUnfilledPositions (sweepFix m), 0⟩ + 1)
      ⟨sweepFix m, getUnfilledPositions (sweepFix m), 0⟩ (by omega)
      (WFState_initial (sweepFix m))
    exact ⟨fuel, by unfold solve; rw [if_neg hs]; exact hf⟩

/-- Witness for C7 at a concrete two-clue grid. -/
theorem C7_witness :
    (sweepLoopO (countZeros twoClueGrid + 1) twoClueGrid).isSome = true ∧
      ∃ fuel, (solve fuel twoClueGrid).isSome = true :=
  C7_solve_terminates (by decide) (by decide)

end Sudoku